import Mathlib

/-!
Verification model of ipywidgets-jsonschema (src/ipywidgets_jsonschema/form.py).

The library compiles a JSON-schema (Draft-07 subset) into a tree of form
elements, each a bundle of getter / setter / resetter closures over mutable
widget state.  We shallowly embed the data-bearing behaviour of that tree:

* JSON values are the inductive JVal (numbers are modelled by Int: the
  library treats number and integer widgets identically up to the concrete
  widget class, and floating point is outside the scope of this model).
* Schemas are the inductive Schema, covering the constructs the claims are
  about: simple types (string / integer / number / boolean) with const,
  pattern, default, minimum, maximum; null; object with properties; array
  with items, minItems, maxItems, default; and anyOf / oneOf / allOf
  variants with titled alternatives.  The enum constructor and the purely
  visual data (titles, descriptions, labels, accordions) are not modelled;
  no claim depends on them.
* Widget state is the inductive WState, mirroring the mutable value traits
  plus the array element pool and element_size counter and the variant
  selector value.
* Python exceptions are modelled with Except Err: an error value means the
  exception propagates to the caller.  Partial mutation that precedes an
  exception is not observable through this model; the claims proved here
  only depend on error paths where the check precedes the mutation, except
  for the array state machine (claims about element_size), for which the
  array operations are modelled in a state-keeping style (returning the
  reached state together with an optional error), matching the in-place
  mutation in the source.
* The external validator (the jsonschema package) is modelled by the
  function validates, parametrised by an abstract regex-search oracle
  (research p s = bool result of re.search(p, s)); the widget-side pattern
  check of the library uses a separate abstract full-match oracle
  (fm p s = bool result of re.fullmatch(p, s)).  No relation between the
  two oracles is assumed.
-/

namespace IpywidgetsJsonschema

/-- JSON values (numbers modelled by Int). -/
inductive JVal where
  | null : JVal
  | bool : Bool → JVal
  | int : Int → JVal
  | str : String → JVal
  | arr : List JVal → JVal
  | obj : List (String × JVal) → JVal

mutual

/-- Structural equality of JSON values (the Python == used by jsonschema
for const and by the round-trip property; dict equality is modelled as
field-list equality, so object key order is significant in this model). -/
def JVal.beq : JVal → JVal → Bool
  | .null, .null => true
  | .bool a, .bool b => a == b
  | .int a, .int b => a == b
  | .str a, .str b => a == b
  | .arr a, .arr b => JVal.beqList a b
  | .obj a, .obj b => JVal.beqPairs a b
  | _, _ => false

/-- Elementwise equality of JSON arrays. -/
def JVal.beqList : List JVal → List JVal → Bool
  | [], [] => true
  | a :: as, b :: bs => JVal.beq a b && JVal.beqList as bs
  | _, _ => false

/-- Elementwise equality of JSON object field lists. -/
def JVal.beqPairs : List (String × JVal) → List (String × JVal) → Bool
  | [], [] => true
  | (n, a) :: as, (m, b) :: bs => n == m && JVal.beq a b && JVal.beqPairs as bs
  | _, _ => false

end

/-- The simple schema types dispatched to _construct_simple. -/
inductive SType where
  | string | integer | number | boolean
deriving DecidableEq, Repr

/-- The keyword options of a simple schema node. -/
structure SOpts where
  const : Option JVal := none
  pattern : Option String := none
  default : Option JVal := none
  minimum : Option Int := none
  maximum : Option Int := none

/-- Which combinator keyword produced a variant node; the element behaviour
is identical for the three (the source reuses _construct_anyof), only the
external validator semantics differ. -/
inductive VKey where
  | anyOf | oneOf | allOf
deriving DecidableEq, Repr

/-- Schema nodes of the modelled fragment. Dispatch in _construct is by key
presence; here each shape is a constructor. -/
inductive Schema where
  | simple : SType → SOpts → Schema
  | nul : Schema
  | obj : List (String × Schema) → Schema
  | arr : Schema → Option Nat → Option Nat → Option JVal → Schema
  | variant : VKey → List (String × Schema) → Schema

/-- Widget state of a form element tree: the value traits of the concrete
widgets, the array pool with its element_size, the variant selector. -/
inductive WState where
  | wnone : WState
  | wsimple : JVal → WState
  | wobj : List WState → WState
  | warr : List WState → Nat → WState
  | wvariant : String → List WState → WState

/-- Python exceptions, by kind. -/
inductive Err where
  | formError
  | validationError
  | keyError
  | typeError
  | indexError
  | valueError
deriving DecidableEq, Repr

/-- Does a JSON value satisfy a draft-07 type keyword (for the modelled
types)?  Note booleans are not integers under jsonschema semantics. -/
def typeOk : SType → JVal → Bool
  | .string, .str _ => true
  | .integer, .int _ => true
  | .number, .int _ => true
  | .boolean, .bool _ => true
  | _, _ => false

/-- minimum / maximum keywords, applied by jsonschema to numeric instances. -/
def boundsOk (opts : SOpts) (v : JVal) : Bool :=
  match v with
  | .int n =>
      (match opts.minimum with | some m => decide (m ≤ n) | none => true)
      && (match opts.maximum with | some m => decide (n ≤ m) | none => true)
  | _ => true

section Validator

variable (research : String → String → Bool)

mutual

/-- Model of the external validator oracle jsonschema.validate (returned as
a Bool: true = no ValidationError) on the modelled schema fragment.
research is the abstract re.search oracle used for the pattern keyword. -/
def validates : Schema → JVal → Bool
  | .simple ty opts, v =>
      typeOk ty v
      && (match opts.const with | some c => JVal.beq v c | none => true)
      && boundsOk opts v
      && (match opts.pattern, v with
          | some p, .str s => research p s
          | _, _ => true)
  | .nul, v => JVal.beq v .null
  | .obj props, v =>
      match v with
      | .obj fields => validatesProps props fields
      | _ => false
  | .arr items mi ma _, v =>
      match v with
      | .arr l =>
          (match mi with | some m => decide (m ≤ l.length) | none => true)
          && (match ma with | some m => decide (l.length ≤ m) | none => true)
          && validatesList items l
      | _ => false
  | .variant k alts, v =>
      match k with
      | .anyOf => (validatesAlts alts v).any id
      | .allOf => (validatesAlts alts v).all id
      | .oneOf => decide ((validatesAlts alts v).count true = 1)

/-- properties keyword: every declared property that is present in the
instance must validate; missing and additional properties are allowed. -/
def validatesProps : List (String × Schema) → List (String × JVal) → Bool
  | [], _ => true
  | (n, s) :: rest, fields =>
      (match fields.lookup n with
       | some fv => validates s fv
       | none => true)
      && validatesProps rest fields

/-- items keyword: every element validates against the item schema. -/
def validatesList : Schema → List JVal → Bool
  | _, [] => true
  | items, x :: xs => validates items x && validatesList items xs

/-- One Bool per alternative of a variant node. -/
def validatesAlts : List (String × Schema) → JVal → List Bool
  | [], _ => []
  | (_, s) :: rest, v => validates s v :: validatesAlts rest v

end

end Validator

/-- Is the widget a numeric input (FloatText / IntText and their bounded
or slider variants)?  Only those get minimum / maximum clamping. -/
def numericType : SType → Bool
  | .integer => true
  | .number => true
  | _ => false

/-- Clamping applied when a value is assigned to a numeric widget: with
both bounds the Bounded widget classes clamp into range themselves; with a
single bound the observer installed by minmax_schema_rule snaps an
out-of-range value back to the bound as soon as it is assigned. -/
def clampOne (mi ma : Option Int) (n : Int) : Int :=
  let n := match mi with | some m => if n < m then m else n | none => n
  match ma with | some m => if n > m then m else n | none => n

/-- Model of the assignment widget.value = v for a simple element. -/
def assignSimple (ty : SType) (opts : SOpts) (v : JVal) : JVal :=
  if numericType ty then
    match v with
    | .int n => .int (clampOne opts.minimum opts.maximum n)
    | x => x
  else v

/-- schema.get("pattern", ".*") in pattern_checker. -/
def patOf (opts : SOpts) : String := opts.pattern.getD ".*"

/-- pattern_checker of _construct_simple: trivially true for non-string
types, re.fullmatch against the pattern (default ".*") for strings.
fm is the abstract re.fullmatch oracle.  A non-string value reaching the
fullmatch call would raise TypeError in Python; that path is unreachable
for validated data and modelled as true here. -/
def patternChecker (fm : String → String → Bool) (ty : SType) (opts : SOpts)
    (v : JVal) : Bool :=
  if ty = .string then
    match v with
    | .str s => fm (patOf opts) s
    | _ => true
  else true

/-- The exception raised when pattern_checker fails: the error message
interpolates schema["pattern"], so when the schema has no pattern key (the
default ".*" failed) the f-string lookup raises KeyError instead of the
FormError being constructed. -/
def patternErr (opts : SOpts) : Err :=
  match opts.pattern with
  | some _ => .formError
  | none => .keyError

/-- widget.trait_defaults()["value"] for the widget class of each simple
type: empty text, zero, unchecked. -/
def traitDefault : SType → JVal
  | .string => .str ""
  | .integer => .int 0
  | .number => .int 0
  | .boolean => .bool false

/-- The value left in a simple widget by _resetter of _construct_simple:
the schema default if present, otherwise the widget trait default followed
by unconditional assignment of minimum and then maximum when present (each
assignment going through the widget clamping). -/
def resetSimpleVal (ty : SType) (opts : SOpts) : JVal :=
  match opts.default with
  | some d => assignSimple ty opts d
  | none =>
      let z := assignSimple ty opts (traitDefault ty)
      let z := match opts.minimum with
               | some m => assignSimple ty opts (.int m)
               | none => z
      match opts.maximum with
      | some m => assignSimple ty opts (.int m)
      | none => z

section Elements

variable (fm : String → String → Bool)

mutual

/-- The getter of the form element compiled for a schema node, as a
function of the current widget state.  Mirrors the _getter closures (and
the construct_element defaults for const / null elements). -/
def getter : Schema → WState → Except Err JVal
  | .simple ty opts, st =>
      match opts.const with
      | some c => .ok c
      | none =>
        match st with
        | .wsimple w =>
            if patternChecker fm ty opts w then .ok w
            else .error (patternErr opts)
        | _ => .error .typeError
  | .nul, _ => .ok .null
  | .obj props, st =>
      match st with
      | .wobj cs => (getterProps props cs).map JVal.obj
      | _ => .error .typeError
  | .arr items _ _ _, st =>
      match st with
      | .warr pool size => (getterList items (pool.take size)).map JVal.arr
      | _ => .error .typeError
  | .variant _ alts, st =>
      match st with
      | .wvariant sel cs =>
          match (alts.map Prod.fst).findIdx? (fun t => t == sel) with
          | some i => getterAlts alts cs i
          | none => .error .valueError
      | _ => .error .typeError
termination_by s st => (sizeOf s, 0, 0)

/-- Object getter body: {p: e.getter() for p, e in elements.items()} —
the keys are iterated in schema declaration order (the elements dict is
built from schema["properties"].items()), independent of the sorter. -/
def getterProps : List (String × Schema) → List WState → Except Err (List (String × JVal))
  | [], _ => .ok []
  | (n, s) :: ps, c :: cs => do
      let v ← getter s c
      let rest ← getterProps ps cs
      pure ((n, v) :: rest)
  | _ :: _, [] => .error .indexError
termination_by ps cs => (sizeOf ps, 0, 0)

/-- Array getter body: [h.getter() for h in elements[:element_size]]. -/
def getterList : Schema → List WState → Except Err (List JVal)
  | _, [] => .ok []
  | items, c :: cs => do
      let v ← getter items c
      let rest ← getterList items cs
      pure (v :: rest)
termination_by items cs => (sizeOf items, 1, sizeOf cs)

/-- Variant getter body: elements[names.index(selector.value)].getter(). -/
def getterAlts : List (String × Schema) → List WState → Nat → Except Err JVal
  | (_, s) :: _, c :: _, 0 => getter s c
  | _ :: ps, _ :: cs, i + 1 => getterAlts ps cs i
  | _, _, _ => .error .indexError
termination_by alts cs i => (sizeOf alts, 0, 0)

end

variable (research : String → String → Bool) (pre : Nat)

mutual

/-- The setter of the form element compiled for a schema node: pushes a
value into widget state.  Mirrors the _setter closures (and the
construct_element no-op defaults for const / null elements). -/
def setter : Schema → WState → JVal → Except Err WState
  | .simple ty opts, st, v =>
      match opts.const with
      | some _ => .ok st
      | none =>
          if patternChecker fm ty opts v then .ok (.wsimple (assignSimple ty opts v))
          else .error (patternErr opts)
  | .nul, st, _ => .ok st
  | .obj props, st, v =>
      match st with
      | .wobj cs =>
          match v with
          | .obj fields => (setterProps fields props cs).map WState.wobj
          | _ => .error .typeError
      | _ => .error .typeError
  | .arr items _ ma _, st, v =>
      match st with
      | .warr pool _ =>
          match arraySetK items ma v pool with
          | (pool2, size2, none) => .ok (.warr pool2 size2)
          | (_, _, some e) => .error e
      | _ => .error .typeError
  | .variant _ alts, st, v =>
      match st with
      | .wvariant sel cs =>
          (setterAlts alts cs v none).map (fun r => .wvariant (r.1.getD sel) r.2)
      | _ => .error .typeError
termination_by s st v => (sizeOf s, 0, 0)

/-- Object setter body: for each declared property, set it from the input
mapping if the key is present, otherwise invoke the child resetter. -/
def setterProps (fields : List (String × JVal)) :
    List (String × Schema) → List WState → Except Err (List WState)
  | [], [] => .ok []
  | (n, s) :: ps, c :: cs => do
      let c2 ← (match fields.lookup n with
                | some fv => setter s c fv
                | none => resetter s c)
      let rest ← setterProps fields ps cs
      pure (c2 :: rest)
  | _, _ => .error .indexError
termination_by ps cs => (sizeOf ps, 0, 0)

/-- Variant setter body: probe every alternative with the external
validator in declaration order; on each accepting alternative assign the
selector to its title and delegate the set to its child.  There is no
break, so every accepting alternative is set and the selector ends on the
last accepting title (the accumulator).  Only the ValidationError of the
probe itself is caught: child setters of the modelled fragment never raise
ValidationError, so their errors propagate. -/
def setterAlts :
    List (String × Schema) → List WState → JVal → Option String →
    Except Err (Option String × List WState)
  | [], [], _, acc => .ok (acc, [])
  | (t, s) :: ps, c :: cs, v, acc =>
      if validates research s v then
        match setter s c v with
        | .error e => .error e
        | .ok c2 => (setterAlts ps cs v (some t)).map (fun r => (r.1, c2 :: r.2))
      else
        (setterAlts ps cs v acc).map (fun r => (r.1, c :: r.2))
  | _, _, _, _ => .error .indexError
termination_by ps cs v acc => (sizeOf ps, 0, 0)

/-- The resetter of the form element compiled for a schema node.  Simple
elements assign default / trait default / bounds (resetSimpleVal); const
and null elements keep the no-op default; objects and variants reset every
child (the variant selector is untouched); arrays replay the schema
default through the array setter when present and otherwise do nothing. -/
def resetter : Schema → WState → Except Err WState
  | .simple ty opts, st =>
      match opts.const with
      | some _ => .ok st
      | none => .ok (.wsimple (resetSimpleVal ty opts))
  | .nul, st => .ok st
  | .obj props, st =>
      match st with
      | .wobj cs => (resetterProps props cs).map WState.wobj
      | _ => .error .typeError
  | .arr items _ ma df, st =>
      match st with
      | .warr pool size =>
          match df with
          | none => .ok (.warr pool size)
          | some d =>
              match arraySetK items ma d pool with
              | (pool2, size2, none) => .ok (.warr pool2 size2)
              | (_, _, some e) => .error e
      | _ => .error .typeError
  | .variant _ alts, st =>
      match st with
      | .wvariant sel cs => (resetterProps alts cs).map (WState.wvariant sel)
      | _ => .error .typeError
termination_by s st => (sizeOf s, 1, 0)

/-- Shared child-list walk for the object and variant resetters (both
iterate over all children in declaration order). -/
def resetterProps : List (String × Schema) → List WState → Except Err (List WState)
  | [], [] => .ok []
  | (_, s) :: ps, c :: cs => do
      let c2 ← resetter s c
      let rest ← resetterProps ps cs
      pure (c2 :: rest)
  | _, _ => .error .indexError
termination_by ps cs => (sizeOf ps, 0, 0)

/-- The initial widget state produced by _construct for a schema node
(simple constructors call their _resetter during construction; arrays
pre-populate max(minItems, preconstruct_array_items) pool entries through
add_entry and then set element_size = minItems; variants construct every
alternative child and start the selector on the first title). -/
def construct : Schema → Except Err WState
  | .simple ty opts =>
      match opts.const with
      | some _ => .ok .wnone
      | none => .ok (.wsimple (resetSimpleVal ty opts))
  | .nul => .ok .wnone
  | .obj props => (constructProps props).map WState.wobj
  | .arr items mi ma _ =>
      match constructItems items ma (max (mi.getD 0) pre) [] 0 with
      | (pool, _, none) => .ok (.warr pool (mi.getD 0))
      | (_, _, some e) => .error e
  | .variant _ [] => .error .indexError
  | .variant _ ((t, s) :: rest) =>
      (constructProps ((t, s) :: rest)).map (WState.wvariant t)
termination_by s => (sizeOf s, 1, 0)

/-- Construct all children of an object (or all alternatives of a
variant), in declaration order. -/
def constructProps : List (String × Schema) → Except Err (List WState)
  | [] => .ok []
  | (_, s) :: ps => do
      let c ← construct s
      let rest ← constructProps ps
      pure (c :: rest)
termination_by ps => (sizeOf ps, 0, 0)

/-- add_entry of _construct_array, in a state-keeping style: returns the
reached pool and element_size together with whether trigger_observers ran
and an optional propagated exception.  Control flow mirrors the source:
early return when element_size equals maxItems (no observers fired);
construct a fresh child only when element_size equals the pool length;
reset the child at index element_size (an out-of-range index models the
IndexError of elements[element_size]); then increment element_size and
fire the observers. -/
def addEntry (items : Schema) (ma : Option Nat) (pool : List WState) (size : Nat) :
    List WState × Nat × Bool × Option Err :=
  if ma = some size then (pool, size, false, none)
  else
    match (if size = pool.length
           then (construct items).map (fun fresh => pool ++ [fresh])
           else .ok pool) with
    | .error e => (pool, size, false, some e)
    | .ok pool2 =>
        match pool2[size]? with
        | none => (pool2, size, false, some .indexError)
        | some c =>
            match resetter items c with
            | .error e => (pool2, size, false, some e)
            | .ok c2 => (pool2.set size c2, size + 1, true, none)
termination_by (sizeOf items, 2, 0)

/-- The loop of the array _setter: for each input element invoke add_entry
and then the child setter at the running index. -/
def setterItems (items : Schema) (ma : Option Nat) :
    List JVal → Nat → List WState → Nat → List WState × Nat × Option Err
  | [], _, pool, size => (pool, size, none)
  | x :: xs, i, pool, size =>
      match addEntry items ma pool size with
      | (pool2, size2, _, some e) => (pool2, size2, some e)
      | (pool2, size2, _, none) =>
          match pool2[i]? with
          | none => (pool2, size2, some .indexError)
          | some c =>
              match setter items c x with
              | .error e => (pool2, size2, some e)
              | .ok c2 => setterItems items ma xs (i + 1) (pool2.set i c2) size2
termination_by l i pool size => (sizeOf items, 3, sizeOf l)

/-- The array _setter: element_size is reset to 0 first, then the input is
enumerated (a non-sequence input raises TypeError after the reset). -/
def arraySetK (items : Schema) (ma : Option Nat) (v : JVal) (pool : List WState) :
    List WState × Nat × Option Err :=
  match v with
  | .arr l => setterItems items ma l 0 pool 0
  | _ => (pool, 0, some .typeError)
termination_by (sizeOf items, 4, 0)

/-- The construction loop of _construct_array: run add_entry
max(minItems, preconstruct_array_items) times starting from the empty
pool. -/
def constructItems (items : Schema) (ma : Option Nat) :
    Nat → List WState → Nat → List WState × Nat × Option Err
  | 0, pool, size => (pool, size, none)
  | n + 1, pool, size =>
      match addEntry items ma pool size with
      | (pool2, size2, _, some e) => (pool2, size2, some e)
      | (pool2, size2, _, none) => constructItems items ma n pool2 size2
termination_by n pool size => (sizeOf items, 4, n)

end

/-- The data property setter of the Form facade: validate the input
against the schema first; only when the external validator accepts is the
root element setter invoked (so a rejected value mutates no widget). -/
def Form.setData (s : Schema) (st : WState) (v : JVal) : Except Err WState :=
  if validates research s v then setter fm research pre s st v
  else .error .validationError

/-- The data property getter of the Form facade: read the root element
getter, then defensively validate the produced document. -/
def Form.getData (s : Schema) (st : WState) : Except Err JVal :=
  match getter fm s st with
  | .ok d => if validates research s d then .ok d else .error .validationError
  | .error e => .error e

/-- remove_entry of _construct_array, state-keeping: early return when
element_size equals minItems (no observers fired); otherwise the clicked
entry (index i, necessarily an active one since only active entries render
a trash button, hence the i < size guard) is moved to the back of the pool
and element_size is decremented; then the observers fire. -/
def removeEntry (mi : Option Nat) (i : Nat) (pool : List WState) (size : Nat) :
    List WState × Nat × Bool :=
  if mi = some size then (pool, size, false)
  else if i < size then
    match pool[i]? with
    | some c => ((pool.eraseIdx i) ++ [c], size - 1, true)
    | none => (pool, size, false)
  else (pool, size, false)

/-- The move handler of _construct_array: the clicked active entry at
index i is swapped with its neighbour at min(max(i + dir, 0),
element_size - 1); element_size is unchanged and no observers fire. -/
def moveEntry (dir : Int) (i : Nat) (pool : List WState) (size : Nat) : List WState :=
  if i < size then
    let newi : Nat := (min (max ((i : Int) + dir) 0) ((size : Int) - 1)).toNat
    match pool[i]?, pool[newi]? with
    | some a, some b => (pool.set i b).set newi a
    | _, _ => pool
  else pool

/-- The user-visible operations on one array element. -/
inductive AOp where
  | add
  | remove (i : Nat)
  | move (dir : Int) (i : Nat)
  | set (v : JVal)
  | reset

/-- One array operation on the (pool, element_size) state, state-keeping
(a propagated exception leaves the state the operation had reached). -/
def arrayStep (items : Schema) (mi ma : Option Nat) (df : Option JVal)
    (st : List WState × Nat) : AOp → List WState × Nat
  | .add =>
      match addEntry fm research pre items ma st.1 st.2 with
      | (pool2, size2, _, _) => (pool2, size2)
  | .remove i =>
      match removeEntry mi i st.1 st.2 with
      | (pool2, size2, _) => (pool2, size2)
  | .move dir i => (moveEntry dir i st.1 st.2, st.2)
  | .set v =>
      match arraySetK fm research pre items ma v st.1 with
      | (pool2, size2, _) => (pool2, size2)
  | .reset =>
      match df with
      | some d =>
          match arraySetK fm research pre items ma d st.1 with
          | (pool2, size2, _) => (pool2, size2)
      | none => st

/-- A sequence of array operations. -/
def arrayRun (items : Schema) (mi ma : Option Nat) (df : Option JVal) :
    List AOp → List WState × Nat → List WState × Nat
  | [], st => st
  | op :: ops, st =>
      arrayRun items mi ma df ops (arrayStep fm research pre items mi ma df st op)

end Elements

section Predicates

variable (fm research : String → String → Bool)

mutual

/-- Shape agreement between a schema node and a widget state (the states
reachable for a form built from that schema): const and null elements
carry no widget, simple elements one value trait, object / variant
children align with the declared properties / alternatives, the array
element_size never exceeds the pool. -/
def wf : Schema → WState → Bool
  | .simple _ opts, st =>
      match opts.const, st with
      | some _, .wnone => true
      | none, .wsimple _ => true
      | _, _ => false
  | .nul, st =>
      match st with
      | .wnone => true
      | _ => false
  | .obj props, st =>
      match st with
      | .wobj cs => wfProps props cs
      | _ => false
  | .arr items _ _ _, st =>
      match st with
      | .warr pool size => decide (size ≤ pool.length) && wfList items pool
      | _ => false
  | .variant _ alts, st =>
      match st with
      | .wvariant sel cs => (alts.map Prod.fst).contains sel && wfProps alts cs
      | _ => false
termination_by s st => (sizeOf s, 0, 0)

/-- Children align one-to-one with the declared properties. -/
def wfProps : List (String × Schema) → List WState → Bool
  | [], [] => true
  | (_, s) :: ps, c :: cs => wf s c && wfProps ps cs
  | _, _ => false
termination_by ps cs => (sizeOf ps, 0, 0)

/-- Every pool entry (active or not) is well-formed for the item schema. -/
def wfList : Schema → List WState → Bool
  | _, [] => true
  | items, c :: cs => wf items c && wfList items cs
termination_by items cs => (sizeOf items, 1, sizeOf cs)

end

mutual

/-- The values the amended round-trip is proved for: well-typed for the
node, full-matching the node pattern under the fullmatch oracle fm (the
library checks re.fullmatch where the validator only checks re.search),
within the numeric bounds, supplying exactly the declared properties of
each object node in declaration order, within maxItems for arrays, and
accepted by at least one alternative of each variant with every accepting
alternative good (the setter pushes the value into every accepting
alternative). -/
def goodVal : Schema → JVal → Bool
  | .simple ty opts, v =>
      match opts.const with
      | some c => JVal.beq v c
      | none =>
          typeOk ty v
          && patternChecker fm ty opts v
          && boundsOk opts v
  | .nul, v => JVal.beq v .null
  | .obj props, v =>
      match v with
      | .obj fields =>
          decide (fields.map Prod.fst = props.map Prod.fst)
          && goodValProps props fields
      | _ => false
  | .arr items _ ma _, v =>
      match v with
      | .arr l =>
          (match ma with | some m => decide (l.length ≤ m) | none => true)
          && goodValList items l
      | _ => false
  | .variant _ alts, v =>
      (validatesAlts research alts v).any id && goodValAlts alts v
termination_by s v => (sizeOf s, 0, 0)

/-- Pointwise goodness of the aligned property values. -/
def goodValProps : List (String × Schema) → List (String × JVal) → Bool
  | [], [] => true
  | (_, s) :: ps, (_, fv) :: fs => goodVal s fv && goodValProps ps fs
  | _, _ => false
termination_by ps fs => (sizeOf ps, 0, 0)

/-- Pointwise goodness of array elements. -/
def goodValList : Schema → List JVal → Bool
  | _, [] => true
  | items, x :: xs => goodVal items x && goodValList items xs
termination_by items xs => (sizeOf items, 1, sizeOf xs)

/-- Every alternative accepting the value must itself be good for it. -/
def goodValAlts : List (String × Schema) → JVal → Bool
  | [], _ => true
  | (_, s) :: ps, v => (!(validates research s v) || goodVal s v) && goodValAlts ps v
termination_by ps v => (sizeOf ps, 0, 0)

end

mutual

/-- The schemas the amended claims are proved for: numeric bounds only on
numeric types (assigning a numeric bound into a text widget would raise
TraitError), no duplicate property names (Python dicts cannot hold them),
minItems ≤ maxItems when both are present, array defaults that are good
arrays within maxItems, and nonempty variants with distinct titles. -/
def goodSchema : Schema → Bool
  | .simple ty opts =>
      !(opts.minimum.isSome || opts.maximum.isSome) || numericType ty
  | .nul => true
  | .obj props =>
      decide ((props.map Prod.fst).Nodup) && goodSchemaProps props
  | .arr items mi ma df =>
      goodSchema items
      && (match mi, ma with
          | some a, some b => decide (a ≤ b)
          | _, _ => true)
      && (match df with
          | none => true
          | some (.arr l) =>
              (match ma with | some m => decide (l.length ≤ m) | none => true)
              && goodValList fm research items l
          | some _ => false)
  | .variant _ alts =>
      !alts.isEmpty && decide ((alts.map Prod.fst).Nodup) && goodSchemaProps alts
termination_by s => (sizeOf s, 0, 0)

/-- goodSchema for every child. -/
def goodSchemaProps : List (String × Schema) → Bool
  | [] => true
  | (_, s) :: ps => goodSchema s && goodSchemaProps ps
termination_by ps => (sizeOf ps, 0, 0)

end

end Predicates


/-- The key order used to compose the child widget lists of an object node
(lines 213-222 of form.py): the sorter output, or the original declaration
order when the sorter raises TypeError (modelled by the sorter returning
none).  This order is used only for the widget layout, never by the
getter. -/
def objWidgetOrder (sorter : List String → Option (List String))
    (props : List (String × Schema)) : List String :=
  match sorter (props.map Prod.fst) with
  | some ks => ks
  | none => props.map Prod.fst

/-- The index of the last alternative whose schema accepts the value under
the external validator: because the variant setter loop has no break, this
is the alternative whose title the selector holds after the loop. -/
def lastAcceptIdx (research : String → String → Bool) :
    List (String × Schema) → JVal → Option Nat
  | [], _ => none
  | (_, s) :: ps, v =>
      match lastAcceptIdx research ps v with
      | some k => some (k + 1)
      | none => if validates research s v then some 0 else none

/-- A sample regex oracle accepting every string, used to instantiate the
abstract re.search / re.fullmatch oracles in concrete scenarios that do
not involve the pattern keyword. -/
def fmAll : String → String → Bool := fun _ _ => true

section Observers

/-- The names filter of a registered observer: traitlets.All, a single
trait name, or an iterable of names (as_tuple wraps a lone string). -/
inductive NameFilter where
  | all
  | one (s : String)
  | many (l : List String)

/-- An entry of the Form._observers list: (handler, names, type), with the
handler identified by an opaque id. -/
structure ObsReg where
  h : Nat
  names : NameFilter
  ty : String

/-- The filter applied by trigger_observers inside add_entry /
remove_entry: fire the handler when its type is "change" and its names
filter is traitlets.All or mentions "value". -/
def qualifies (o : ObsReg) : Bool :=
  o.ty == "change"
  && (match o.names with
      | .all => true
      | .one s => s == "value"
      | .many l => l.contains "value")

/-- The handlers invoked by one trigger_observers call. -/
def notified (obs : List ObsReg) : List Nat :=
  (obs.filter qualifies).map ObsReg.h

/-- Facade-level operations relevant to observer propagation on an array
form: Form.observe, and the add / remove actions of the array element. -/
inductive FOp where
  | observeOp (h : Nat) (n : NameFilter) (t : String)
  | addOp
  | removeOp (i : Nat)

/-- The Form._observers list together with the array state. -/
structure FState where
  obs : List ObsReg
  pool : List WState
  size : Nat

variable (fm research : String → String → Bool) (pre : Nat)

/-- One facade-level step; the second component lists the handlers fired
by the step (trigger_observers iterates the current Form._observers, so
handlers registered after construction of pool entries still fire). -/
def formStep (items : Schema) (mi ma : Option Nat) (st : FState) :
    FOp → FState × List Nat
  | .observeOp h n t => ({ st with obs := st.obs ++ [⟨h, n, t⟩] }, [])
  | .addOp =>
      match addEntry fm research pre items ma st.pool st.size with
      | (pool2, size2, fired, _) =>
          ({ st with pool := pool2, size := size2 },
           if fired then notified st.obs else [])
  | .removeOp i =>
      match removeEntry mi i st.pool st.size with
      | (pool2, size2, fired) =>
          ({ st with pool := pool2, size := size2 },
           if fired then notified st.obs else [])

/-- Run a sequence of facade-level operations. -/
def formRun (items : Schema) (mi ma : Option Nat) : List FOp → FState → FState
  | [], st => st
  | op :: ops, st =>
      formRun items mi ma ops (formStep fm research pre items mi ma st op).1

end Observers

/-!
Theorems.  The general lemmas about the embedded definitions come first;
the claim theorems, counterexamples and witnesses follow.
-/

@[simp] theorem except_bind_ok {α β : Type} (a : α) (f : α → Except Err β) :
    (Except.ok a : Except Err α) >>= f = f a := rfl

@[simp] theorem except_bind_error {α β : Type} (e : Err) (f : α → Except Err β) :
    (Except.error e : Except Err α) >>= f = .error e := rfl

@[simp] theorem except_pure_eq_ok {α : Type} (a : α) :
    (pure a : Except Err α) = .ok a := rfl

@[simp] theorem except_map_ok {α β : Type} (f : α → β) (a : α) :
    Except.map f (.ok a : Except Err α) = .ok (f a) := rfl

@[simp] theorem except_map_error {α β : Type} (f : α → β) (e : Err) :
    Except.map f (.error e : Except Err α) = .error e := rfl

theorem JVal.beq_iff_aux :
    ∀ (n : Nat) (a : JVal), sizeOf a < n → ∀ b, (JVal.beq a b = true ↔ a = b) := by
  intro n
  induction n with
  | zero => intro a h; exact absurd h (Nat.not_lt_zero _)
  | succ n ih =>
    intro a ha b
    have hlist : ∀ (xs : List JVal), sizeOf xs ≤ n → ∀ ys,
        (JVal.beqList xs ys = true ↔ xs = ys) := by
      intro xs
      induction xs with
      | nil => intro _ ys; cases ys <;> simp [JVal.beqList]
      | cons x xs ihl =>
        intro h ys
        cases ys with
        | nil => simp [JVal.beqList]
        | cons y ys =>
          have hx : sizeOf x < n := by simp at h; omega
          have hxs : sizeOf xs ≤ n := by simp at h; omega
          simp [JVal.beqList, ih x hx y, ihl hxs ys]
    have hpairs : ∀ (xs : List (String × JVal)), sizeOf xs ≤ n → ∀ ys,
        (JVal.beqPairs xs ys = true ↔ xs = ys) := by
      intro xs
      induction xs with
      | nil => intro _ ys; cases ys <;> simp [JVal.beqPairs]
      | cons x xs ihl =>
        intro h ys
        cases ys with
        | nil => cases x; simp [JVal.beqPairs]
        | cons y ys =>
          cases x with
          | mk nx vx =>
            cases y with
            | mk ny vy =>
              have hx : sizeOf vx < n := by simp at h; omega
              have hxs : sizeOf xs ≤ n := by simp at h; omega
              simp [JVal.beqPairs, ih vx hx vy, ihl hxs ys, and_assoc]
    cases a with
    | null => cases b <;> simp [JVal.beq]
    | bool x => cases b <;> simp [JVal.beq]
    | int x => cases b <;> simp [JVal.beq]
    | str x => cases b <;> simp [JVal.beq]
    | arr xs =>
      cases b <;> simp [JVal.beq]
      exact hlist xs (by simp at ha; omega) _
    | obj xs =>
      cases b <;> simp [JVal.beq]
      exact hpairs xs (by simp at ha; omega) _

theorem JVal.beq_iff (a b : JVal) : JVal.beq a b = true ↔ a = b :=
  JVal.beq_iff_aux (sizeOf a + 1) a (Nat.lt_succ_self _) b

theorem getterProps_keys (fm : String → String → Bool) :
    ∀ (props : List (String × Schema)) (cs : List WState) (fs : List (String × JVal)),
    getterProps fm props cs = .ok fs → fs.map Prod.fst = props.map Prod.fst := by
  intro props
  induction props with
  | nil =>
    intro cs fs h
    simp only [getterProps] at h
    cases h
    simp
  | cons p ps ih =>
    intro cs fs h
    obtain ⟨n, s⟩ := p
    cases cs with
    | nil => simp only [getterProps] at h; cases h
    | cons c cs =>
      simp only [getterProps] at h
      cases hg : getter fm s c with
      | error e => rw [hg] at h; simp at h
      | ok v =>
        rw [hg] at h
        cases hr : getterProps fm ps cs with
        | error e => rw [hr] at h; simp at h
        | ok rest =>
          rw [hr] at h
          simp at h
          subst h
          simp [ih cs rest hr]

/-- C10: for every object element the mapping returned by the getter lists
the properties in schema declaration order: the getter iterates the
elements dict built from schema["properties"].items() and never consults
the sorter, for any sorter and independently of whether the sorter raised
TypeError; the sorter (with declaration order as its TypeError fallback)
determines only the widget composition order, modelled by
objWidgetOrder. -/
theorem c10_getter_keys_declaration_order :
    (∀ (fm : String → String → Bool) (props : List (String × Schema))
       (cs : List WState) (v : JVal),
       getter fm (.obj props) (.wobj cs) = .ok v →
       ∃ fs, v = .obj fs ∧ fs.map Prod.fst = props.map Prod.fst)
    ∧ (∀ (sorter : List String → Option (List String)) (props : List (String × Schema)),
       objWidgetOrder sorter props =
         match sorter (props.map Prod.fst) with
         | some ks => ks
         | none => props.map Prod.fst) := by
  constructor
  · intro fm props cs v h
    simp only [getter] at h
    cases hg : getterProps fm props cs with
    | error e => rw [hg] at h; simp at h
    | ok fs =>
      rw [hg] at h
      simp at h
      exact ⟨fs, h.symm, getterProps_keys fm props cs fs hg⟩
  · intro sorter props
    rfl

theorem c10_witness :
    ∃ fs, JVal.obj [("b", .int 1), ("a", .int 2)] = .obj fs
          ∧ fs.map Prod.fst = ["b", "a"] :=
  c10_getter_keys_declaration_order.1 fmAll
    [("b", .simple .integer ⟨none, none, none, none, none⟩),
     ("a", .simple .integer ⟨none, none, none, none, none⟩)]
    [.wsimple (.int 1), .wsimple (.int 2)] _
    (by simp [getter, getterProps, patternChecker, fmAll])

/-- C5: for a string element with a pattern, the setter raises FormError
exactly when the input string does not full-match the pattern (and stores
it otherwise), and the getter raises FormError exactly when the stored
widget value does not full-match (and returns it otherwise) — the same
re.fullmatch check (the oracle fm applied to the same pattern) guards both
the read and the write path. -/
theorem c5_pattern_symmetric :
    ∀ (fm research : String → String → Bool) (pre : Nat) (p : String)
      (d : Option JVal) (mi ma : Option Int) (s w : String) (st : WState),
      (setter fm research pre (.simple .string ⟨none, some p, d, mi, ma⟩) st (.str s) =
        if fm p s then .ok (.wsimple (.str s)) else .error .formError)
      ∧ (getter fm (.simple .string ⟨none, some p, d, mi, ma⟩) (.wsimple (.str w)) =
        if fm p w then .ok (.str w) else .error .formError) := by
  intro fm research pre p d mi ma s w st
  constructor
  · simp only [setter, patternChecker, patOf, patternErr, assignSimple, numericType]
    cases h : fm p s <;> simp [h]
  · simp only [getter, patternChecker, patOf, patternErr]
    cases h : fm p w <;> simp [h]

/-- C7: the data property setter of the facade validates the input value
against the form schema before anything else; when the external validator
rejects, the validation error is raised and the root element setter is
never invoked, so no widget state anywhere in the tree has changed (the
definition of Form.setData only reaches setter under a successful
validates test). -/
theorem c7_validate_before_mutate :
    ∀ (fm research : String → String → Bool) (pre : Nat) (s : Schema)
      (st : WState) (v : JVal),
      validates research s v = false →
      Form.setData fm research pre s st v = .error .validationError := by
  intro fm research pre s st v h
  simp [Form.setData, h]

theorem c7_witness :
    validates fmAll (.simple .integer ⟨none, none, none, none, none⟩) (.str "x") = false
    ∧ Form.setData fmAll fmAll 0 (.simple .integer ⟨none, none, none, none, none⟩)
        (.wsimple (.int 0)) (.str "x") = .error .validationError :=
  ⟨by simp [validates, typeOk, boundsOk],
   c7_validate_before_mutate fmAll fmAll 0 _ _ _ (by simp [validates, typeOk, boundsOk])⟩

theorem setterProps_spec (fm research : String → String → Bool) (pre : Nat)
    (fields : List (String × JVal)) :
    ∀ (props : List (String × Schema)) (cs cs' : List WState),
    setterProps fm research pre fields props cs = .ok cs' →
    List.Forall₂ (fun (pc : (String × Schema) × WState) (c' : WState) =>
        match fields.lookup pc.1.1 with
        | some fv => setter fm research pre pc.1.2 pc.2 fv = .ok c'
        | none => resetter fm research pre pc.1.2 pc.2 = .ok c')
      (props.zip cs) cs' := by
  intro props
  induction props with
  | nil =>
    intro cs cs' h
    cases cs with
    | nil => simp only [setterProps] at h; cases h; simp
    | cons c cs => simp only [setterProps] at h; simp at h
  | cons p ps ih =>
    intro cs cs' h
    obtain ⟨n, s⟩ := p
    cases cs with
    | nil => simp only [setterProps] at h; simp at h
    | cons c cs =>
      simp only [setterProps] at h
      cases hl : fields.lookup n with
      | some fv =>
        rw [hl] at h
        cases hset : setter fm research pre s c fv with
        | error e => simp [hset] at h
        | ok c2 =>
          simp only [hset, except_bind_ok] at h
          cases hrest : setterProps fm research pre fields ps cs with
          | error e => simp [hrest] at h
          | ok rest =>
            simp only [hrest, except_bind_ok, except_pure_eq_ok, Except.ok.injEq] at h
            subst h
            exact List.Forall₂.cons (by simp [hl, hset]) (ih cs rest hrest)
      | none =>
        rw [hl] at h
        cases hset : resetter fm research pre s c with
        | error e => simp [hset] at h
        | ok c2 =>
          simp only [hset, except_bind_ok] at h
          cases hrest : setterProps fm research pre fields ps cs with
          | error e => simp [hrest] at h
          | ok rest =>
            simp only [hrest, except_bind_ok, except_pure_eq_ok, Except.ok.injEq] at h
            subst h
            exact List.Forall₂.cons (by simp [hl, hset]) (ih cs rest hrest)

/-- C6: the object setter walks the declared properties in order; a
property whose name is present in the input mapping is pushed to its child
setter with the mapped value, and a property omitted from the input has
its child resetter invoked instead (restoring its default rather than
keeping the previous value).  Keys of the input that are not declared
properties are ignored. -/
theorem c6_object_setter_partial_update :
    ∀ (fm research : String → String → Bool) (pre : Nat)
      (props : List (String × Schema)) (cs cs' : List WState)
      (fields : List (String × JVal)),
      setter fm research pre (.obj props) (.wobj cs) (.obj fields) = .ok (.wobj cs') →
      List.Forall₂ (fun (pc : (String × Schema) × WState) (c' : WState) =>
          match fields.lookup pc.1.1 with
          | some fv => setter fm research pre pc.1.2 pc.2 fv = .ok c'
          | none => resetter fm research pre pc.1.2 pc.2 = .ok c')
        (props.zip cs) cs' := by
  intro fm research pre props cs cs' fields h
  simp only [setter] at h
  cases hs : setterProps fm research pre fields props cs with
  | error e => rw [hs] at h; simp at h
  | ok cs2 =>
    rw [hs] at h
    simp at h
    cases h
    exact setterProps_spec fm research pre fields props cs cs' hs

theorem c6_witness :
    List.Forall₂ (fun (pc : (String × Schema) × WState) (c' : WState) =>
        match [("a", JVal.int 9)].lookup pc.1.1 with
        | some fv => setter fmAll fmAll 0 pc.1.2 pc.2 fv = .ok c'
        | none => resetter fmAll fmAll 0 pc.1.2 pc.2 = .ok c')
      ([("a", Schema.simple .integer ⟨none, none, some (.int 1), none, none⟩),
        ("b", Schema.simple .integer ⟨none, none, some (.int 2), none, none⟩)].zip
        [WState.wsimple (.int 1), WState.wsimple (.int 2)])
      [WState.wsimple (.int 9), WState.wsimple (.int 2)] :=
  c6_object_setter_partial_update fmAll fmAll 0 _ _ _ _
    (by simp [setter, setterProps, resetter, patternChecker, assignSimple, numericType,
              resetSimpleVal, clampOne, List.lookup])

theorem resetterProps_spec (fm research : String → String → Bool) (pre : Nat) :
    ∀ (alts : List (String × Schema)) (cs cs' : List WState),
    resetterProps fm research pre alts cs = .ok cs' →
    List.Forall₂ (fun (pc : (String × Schema) × WState) (c' : WState) =>
        resetter fm research pre pc.1.2 pc.2 = .ok c') (alts.zip cs) cs' := by
  intro alts
  induction alts with
  | nil =>
    intro cs cs' h
    cases cs with
    | nil => simp only [resetterProps] at h; cases h; simp
    | cons c cs => simp only [resetterProps] at h; simp at h
  | cons p ps ih =>
    intro cs cs' h
    obtain ⟨n, s⟩ := p
    cases cs with
    | nil => simp only [resetterProps] at h; simp at h
    | cons c cs =>
      simp only [resetterProps] at h
      cases hset : resetter fm research pre s c with
      | error e => rw [hset] at h; simp at h
      | ok c2 =>
        rw [hset] at h
        cases hrest : resetterProps fm research pre ps cs with
        | error e => rw [hrest] at h; simp at h
        | ok rest =>
          rw [hrest] at h
          simp at h
          subst h
          exact List.Forall₂.cons hset (ih cs rest hrest)

/-- C9: the resetter of a variant element resets every alternative child —
including the ones that are not currently active — and leaves the selector
value (hence the active alternative) unchanged: _resetter of
_construct_anyof loops over all elements and never touches selector. -/
theorem c9_variant_resetter_frame :
    ∀ (fm research : String → String → Bool) (pre : Nat) (k : VKey)
      (alts : List (String × Schema)) (sel : String) (cs : List WState) (st' : WState),
      resetter fm research pre (.variant k alts) (.wvariant sel cs) = .ok st' →
      ∃ cs', st' = .wvariant sel cs'
        ∧ List.Forall₂ (fun (pc : (String × Schema) × WState) (c' : WState) =>
            resetter fm research pre pc.1.2 pc.2 = .ok c') (alts.zip cs) cs' := by
  intro fm research pre k alts sel cs st' h
  simp only [resetter] at h
  cases hr : resetterProps fm research pre alts cs with
  | error e => rw [hr] at h; simp at h
  | ok cs2 =>
    rw [hr] at h
    simp at h
    exact ⟨cs2, h.symm, resetterProps_spec fm research pre alts cs cs2 hr⟩

theorem c9_witness :
    ∃ cs', WState.wvariant "B" [.wsimple (.int 0), .wsimple (.int 0)] = .wvariant "B" cs'
      ∧ List.Forall₂ (fun (pc : (String × Schema) × WState) (c' : WState) =>
          resetter fmAll fmAll 0 pc.1.2 pc.2 = .ok c')
        ([("A", Schema.simple .integer ⟨none, none, none, none, none⟩),
          ("B", Schema.simple .integer ⟨none, none, none, none, none⟩)].zip
          [WState.wsimple (.int 5), WState.wsimple (.int 7)]) cs' :=
  c9_variant_resetter_frame fmAll fmAll 0 .anyOf _ "B" _ _
    (by simp [resetter, resetterProps, resetSimpleVal, assignSimple, numericType,
              traitDefault, clampOne])

/-- C4 (amended): the resetter of a simple element applies the schema
default when present (through the widget clamping); absent a default it
assigns the widget trait default (the zero value) and then unconditionally
overwrites it with minimum and then maximum whenever those keys are
present — so a sole maximum overrides the zero value even when the zero
value is compatible with it, and with both bounds the maximum wins.  An
array resetter replays the schema default through the array setter when
present and otherwise leaves the element state unchanged. -/
theorem c4_resetter_amended :
    ∀ (fm research : String → String → Bool) (pre : Nat),
    (∀ (ty : SType) (opts : SOpts) (st : WState) (d : JVal),
       opts.const = none → opts.default = some d →
       resetter fm research pre (.simple ty opts) st =
         .ok (.wsimple (assignSimple ty opts d)))
    ∧ (∀ (ty : SType) (opts : SOpts) (st : WState),
       opts.const = none → opts.default = none → opts.minimum = none →
       opts.maximum = none →
       resetter fm research pre (.simple ty opts) st = .ok (.wsimple (traitDefault ty)))
    ∧ (∀ (ty : SType) (opts : SOpts) (st : WState) (m : Int),
       opts.const = none → opts.default = none → opts.minimum = none →
       opts.maximum = some m →
       resetter fm research pre (.simple ty opts) st = .ok (.wsimple (.int m)))
    ∧ (∀ (ty : SType) (opts : SOpts) (st : WState) (a m : Int),
       opts.const = none → opts.default = none → opts.minimum = some a →
       opts.maximum = some m → a ≤ m →
       resetter fm research pre (.simple ty opts) st = .ok (.wsimple (.int m)))
    ∧ (∀ (items : Schema) (mi ma : Option Nat) (pool : List WState) (size : Nat),
       resetter fm research pre (.arr items mi ma none) (.warr pool size) =
         .ok (.warr pool size))
    ∧ (∀ (items : Schema) (mi ma : Option Nat) (d : JVal) (st : WState),
       resetter fm research pre (.arr items mi ma (some d)) st =
         setter fm research pre (.arr items mi ma (some d)) st d) := by
  intro fm research pre
  refine ⟨?_, ?_, ?_, ?_, ?_, ?_⟩
  · intro ty opts st d hc hd
    simp [resetter, hc, resetSimpleVal, hd]
  · intro ty opts st hc hd hmi hma
    cases ty <;>
      simp [resetter, hc, resetSimpleVal, hd, hmi, hma, assignSimple, clampOne,
            numericType, traitDefault]
  · intro ty opts st m hc hd hmi hma
    have hcl : clampOne none (some m) m = m := by simp [clampOne]
    simp [resetter, hc, resetSimpleVal, hd, hmi, hma, assignSimple, hcl]
  · intro ty opts st a m hc hd hmi hma hle
    have hcl : clampOne (some a) (some m) m = m := by
      simp only [clampOne]
      split_ifs <;> omega
    simp [resetter, hc, resetSimpleVal, hd, hmi, hma, assignSimple, hcl]
  · intro items mi ma pool size
    simp [resetter]
  · intro items mi ma d st
    cases st <;> simp [resetter, setter]

theorem c4_witness :
    resetter fmAll fmAll 0 (.simple .integer ⟨none, none, none, none, some 10⟩)
      (.wsimple (.int 7)) = .ok (.wsimple (.int 10)) :=
  (c4_resetter_amended fmAll fmAll 0).2.2.1 .integer
    ⟨none, none, none, none, some 10⟩ (.wsimple (.int 7)) 10 rfl rfl rfl rfl

theorem c4_counterexample :
    resetter fmAll fmAll 0 (.simple .integer ⟨none, none, none, none, some 10⟩)
      (.wsimple (.int 7)) = .ok (.wsimple (.int 10))
    ∧ traitDefault .integer = .int 0
    ∧ boundsOk ⟨none, none, none, none, some 10⟩ (traitDefault .integer) = true
    ∧ JVal.int 10 ≠ JVal.int 0 := by
  refine ⟨?_, rfl, by simp [boundsOk, traitDefault], by simp⟩
  simp [resetter, resetSimpleVal, assignSimple, clampOne, numericType]

theorem lastAcceptIdx_mem (research : String → String → Bool) :
    ∀ (alts : List (String × Schema)) (v : JVal) (k : Nat),
    lastAcceptIdx research alts v = some k →
    k < alts.length ∧ ∃ p, alts[k]? = some p ∧ validates research p.2 v = true := by
  intro alts
  induction alts with
  | nil => intro v k h; simp [lastAcceptIdx] at h
  | cons p ps ih =>
    intro v k h
    obtain ⟨t, s⟩ := p
    simp only [lastAcceptIdx] at h
    cases hps : lastAcceptIdx research ps v with
    | some k2 =>
      rw [hps] at h
      simp at h
      subst h
      obtain ⟨hk, q, hq, hv⟩ := ih v k2 hps
      refine ⟨by simp; omega, q, ?_, hv⟩
      simpa using hq
    | none =>
      rw [hps] at h
      cases hval : validates research s v with
      | true =>
        rw [hval] at h
        simp at h
        subst h
        exact ⟨by simp, (t, s), by simp, hval⟩
      | false => rw [hval] at h; simp at h

theorem lastAcceptIdx_none_iff (research : String → String → Bool) :
    ∀ (alts : List (String × Schema)) (v : JVal),
    lastAcceptIdx research alts v = none ↔
      (validatesAlts research alts v).any id = false := by
  intro alts
  induction alts with
  | nil => intro v; simp [lastAcceptIdx, validatesAlts]
  | cons p ps ih =>
    intro v
    obtain ⟨t, s⟩ := p
    simp only [lastAcceptIdx, validatesAlts]
    cases hps : lastAcceptIdx research ps v with
    | some k2 =>
      simp
      have := (ih v).not
      simp [hps] at this
      simp [List.any_cons, this]
    | none =>
      have := (ih v).mp hps
      cases hval : validates research s v <;> simp [List.any_cons, hval, this]

theorem setterAlts_spec (fm research : String → String → Bool) (pre : Nat) :
    ∀ (alts : List (String × Schema)) (cs cs' : List WState) (v : JVal)
      (acc racc : Option String),
      setterAlts fm research pre alts cs v acc = .ok (racc, cs') →
      (racc = match lastAcceptIdx research alts v with
              | some k => (alts.map Prod.fst)[k]?
              | none => acc)
      ∧ List.Forall₂ (fun (pc : (String × Schema) × WState) (c' : WState) =>
          if validates research pc.1.2 v
          then setter fm research pre pc.1.2 pc.2 v = .ok c'
          else c' = pc.2) (alts.zip cs) cs' := by
  intro alts
  induction alts with
  | nil =>
    intro cs cs' v acc racc h
    cases cs with
    | nil =>
      simp only [setterAlts] at h
      cases h
      simp [lastAcceptIdx]
    | cons c cs => simp only [setterAlts] at h; simp at h
  | cons p ps ih =>
    intro cs cs' v acc racc h
    obtain ⟨t, s⟩ := p
    cases cs with
    | nil => simp only [setterAlts] at h; simp at h
    | cons c cs =>
      simp only [setterAlts] at h
      cases hval : validates research s v with
      | true =>
        rw [hval] at h
        simp only [if_true] at h
        cases hset : setter fm research pre s c v with
        | error e => rw [hset] at h; simp at h
        | ok c2 =>
          rw [hset] at h
          cases hrest : setterAlts fm research pre ps cs v (some t) with
          | error e => rw [hrest] at h; simp at h
          | ok r =>
            obtain ⟨r1, cs1⟩ := r
            rw [hrest] at h
            simp at h
            obtain ⟨hracc, hcs⟩ := h
            subst hracc
            subst hcs
            obtain ⟨hr1, hfa⟩ := ih cs cs1 v (some t) r1 hrest
            constructor
            · rw [hr1]
              cases hps : lastAcceptIdx research ps v <;>
                simp [lastAcceptIdx, hps, hval]
            · exact List.Forall₂.cons (by simp [hval, hset]) hfa
      | false =>
        rw [hval] at h
        simp only [Bool.false_eq_true, if_false] at h
        cases hrest : setterAlts fm research pre ps cs v acc with
        | error e => rw [hrest] at h; simp at h
        | ok r =>
          obtain ⟨r1, cs1⟩ := r
          rw [hrest] at h
          simp at h
          obtain ⟨hracc, hcs⟩ := h
          subst hracc
          subst hcs
          obtain ⟨hr1, hfa⟩ := ih cs cs1 v acc r1 hrest
          constructor
          · rw [hr1]
            cases hps : lastAcceptIdx research ps v <;>
              simp [lastAcceptIdx, hps, hval]
          · exact List.Forall₂.cons (by simp [hval]) hfa

/-- C2 (amended): the variant setter probes the alternatives with the
external validator in declaration order, but the loop has no break: every
alternative whose schema accepts the value has the selector assigned to
its title and the value delegated to its child, so after the loop the
selector holds the title of the LAST accepting alternative (not the
first), every accepting alternative's child has received the value, the
other children are untouched, and when no alternative accepts the set is a
no-op on selector and children. -/
theorem c2_variant_setter_last_accepting :
    ∀ (fm research : String → String → Bool) (pre : Nat) (k : VKey)
      (alts : List (String × Schema)) (sel sel' : String)
      (cs cs' : List WState) (v : JVal),
      setter fm research pre (.variant k alts) (.wvariant sel cs) v =
        .ok (.wvariant sel' cs') →
      (sel' = match lastAcceptIdx research alts v with
              | some i => ((alts.map Prod.fst)[i]?).getD sel
              | none => sel)
      ∧ List.Forall₂ (fun (pc : (String × Schema) × WState) (c' : WState) =>
          if validates research pc.1.2 v
          then setter fm research pre pc.1.2 pc.2 v = .ok c'
          else c' = pc.2) (alts.zip cs) cs' := by
  intro fm research pre k alts sel sel' cs cs' v h
  simp only [setter] at h
  cases hsa : setterAlts fm research pre alts cs v none with
  | error e => rw [hsa] at h; simp at h
  | ok r =>
    obtain ⟨racc, cs2⟩ := r
    rw [hsa] at h
    simp at h
    obtain ⟨hsel, hcs⟩ := h
    subst hcs
    obtain ⟨hracc, hfa⟩ := setterAlts_spec fm research pre alts cs cs2 v none racc hsa
    refine ⟨?_, hfa⟩
    subst hracc
    rw [← hsel]
    cases hidx : lastAcceptIdx research alts v with
    | some i => simp
    | none => simp

theorem c2_witness :
    ("B" = match lastAcceptIdx fmAll
             [("A", Schema.simple .integer ⟨none, none, none, none, none⟩),
              ("B", Schema.simple .integer ⟨none, none, none, none, none⟩)] (.int 5) with
           | some i => (["A", "B"][i]?).getD "A"
           | none => "A")
    ∧ List.Forall₂ (fun (pc : (String × Schema) × WState) (c' : WState) =>
        if validates fmAll pc.1.2 (.int 5)
        then setter fmAll fmAll 0 pc.1.2 pc.2 (.int 5) = .ok c'
        else c' = pc.2)
      ([("A", Schema.simple .integer ⟨none, none, none, none, none⟩),
        ("B", Schema.simple .integer ⟨none, none, none, none, none⟩)].zip
        [WState.wsimple (.int 0), WState.wsimple (.int 0)])
      [WState.wsimple (.int 5), WState.wsimple (.int 5)] :=
  c2_variant_setter_last_accepting fmAll fmAll 0 .anyOf _ "A" "B" _ _ (.int 5)
    (by simp [setter, setterAlts, validates, typeOk, boundsOk, patternChecker,
              assignSimple, numericType, clampOne])

theorem c2_counterexample :
    setter fmAll fmAll 0
      (.variant .anyOf [("A", .simple .integer ⟨none, none, none, none, none⟩),
                        ("B", .simple .integer ⟨none, none, none, none, none⟩)])
      (.wvariant "A" [.wsimple (.int 0), .wsimple (.int 0)]) (.int 5)
      = .ok (.wvariant "B" [.wsimple (.int 5), .wsimple (.int 5)])
    ∧ validates fmAll (.simple .integer ⟨none, none, none, none, none⟩) (.int 5) = true
    ∧ "B" ≠ "A" := by
  refine ⟨?_, by simp [validates, typeOk, boundsOk], by simp⟩
  simp [setter, setterAlts, validates, typeOk, boundsOk, patternChecker,
        assignSimple, numericType, clampOne]

theorem addEntry_len (fm research : String → String → Bool) (pre : Nat)
    (items : Schema) (ma : Option Nat) (pool : List WState) (size : Nat)
    (h : size ≤ pool.length) :
    (addEntry fm research pre items ma pool size).2.1 ≤
      (addEntry fm research pre items ma pool size).1.length
    ∧ pool.length ≤ (addEntry fm research pre items ma pool size).1.length := by
  simp only [addEntry]
  by_cases hg : ma = some size
  · simp [hg, h]
  · rw [if_neg hg]
    by_cases hsz : size = pool.length
    · rw [if_pos hsz]
      cases hc : construct fm research pre items with
      | error e => simp [hc, h]
      | ok fresh =>
        have hidx : (pool ++ [fresh])[size]? = some fresh := by
          rw [hsz]
          simp
        cases hr : resetter fm research pre items fresh with
        | error e => simp [hc, hidx, hr]; omega
        | ok c2 => simp [hc, hidx, hr, hsz]
    · rw [if_neg hsz]
      cases hidx : pool[size]? with
      | none => simp [hidx, h]
      | some c =>
        have hlt : size < pool.length := (List.getElem?_eq_some_iff.mp hidx).1
        cases hr : resetter fm research pre items c with
        | error e => simp [hidx, hr, h]
        | ok c2 => simp [hidx, hr]; omega

theorem setterItems_len (fm research : String → String → Bool) (pre : Nat)
    (items : Schema) (ma : Option Nat) :
    ∀ (l : List JVal) (i : Nat) (pool : List WState) (size : Nat),
    size ≤ pool.length →
    (setterItems fm research pre items ma l i pool size).2.1 ≤
      (setterItems fm research pre items ma l i pool size).1.length := by
  intro l
  induction l with
  | nil => intro i pool size h; simpa [setterItems] using h
  | cons x xs ih =>
    intro i pool size h
    obtain ⟨ha1, ha2⟩ := addEntry_len fm research pre items ma pool size h
    simp only [setterItems]
    cases hae : addEntry fm research pre items ma pool size with
    | mk pool2 r2 =>
      obtain ⟨size2, fired, err⟩ := r2
      simp only [hae] at ha1 ha2 ⊢
      cases err with
      | some e => simpa using ha1
      | none =>
        cases hidx : pool2[i]? with
        | none => simpa [hidx] using ha1
        | some c =>
          simp only [hidx]
          cases hs : setter fm research pre items c x with
          | error e => simpa [hs] using ha1
          | ok c2 =>
            simp only [hs]
            have := ih (i + 1) (pool2.set i c2) size2 (by simpa using ha1)
            simpa using this

theorem removeEntry_len (mi : Option Nat) (i : Nat) (pool : List WState) (size : Nat)
    (h : size ≤ pool.length) :
    (removeEntry mi i pool size).2.1 ≤ (removeEntry mi i pool size).1.length := by
  simp only [removeEntry]
  by_cases hg : mi = some size
  · simp [hg, h]
  · rw [if_neg hg]
    by_cases hi : i < size
    · rw [if_pos hi]
      cases hidx : pool[i]? with
      | none => simp [hidx, h]
      | some c =>
        have hlt : i < pool.length := (List.getElem?_eq_some_iff.mp hidx).1
        simp [hidx, List.length_eraseIdx, hlt]
        omega
    · simp [hi, h]

theorem moveEntry_len (dir : Int) (i : Nat) (pool : List WState) (size : Nat) :
    (moveEntry dir i pool size).length = pool.length := by
  simp only [moveEntry]
  by_cases hi : i < size
  · rw [if_pos hi]
    cases h1 : pool[i]? with
    | none => rfl
    | some a =>
      cases h2 : pool[(min (max ((i : Int) + dir) 0) ((size : Int) - 1)).toNat]? with
      | none => rfl
      | some b => simp
  · rw [if_neg hi]

theorem arrayStep_inv (fm research : String → String → Bool) (pre : Nat)
    (items : Schema) (mi ma : Option Nat) (df : Option JVal)
    (st : List WState × Nat) (op : AOp) (h : st.2 ≤ st.1.length) :
    (arrayStep fm research pre items mi ma df st op).2 ≤
      (arrayStep fm research pre items mi ma df st op).1.length := by
  obtain ⟨pool, size⟩ := st
  cases op with
  | add =>
    have := (addEntry_len fm research pre items ma pool size h).1
    simp only [arrayStep]
    cases hae : addEntry fm research pre items ma pool size with
    | mk p2 r2 =>
      obtain ⟨s2, f2, e2⟩ := r2
      rw [hae] at this
      simp only at this
      simpa [hae] using this
  | remove i =>
    have := removeEntry_len mi i pool size h
    simp only [arrayStep]
    cases hre : removeEntry mi i pool size with
    | mk p2 r2 =>
      obtain ⟨s2, f2⟩ := r2
      rw [hre] at this
      simp only at this
      simpa [hre] using this
  | move dir i =>
    simp only [arrayStep]
    simpa [moveEntry_len dir i pool size] using h
  | set v =>
    cases v with
    | arr l =>
      have := setterItems_len fm research pre items ma l 0 pool 0 (by omega)
      cases hsi : setterItems fm research pre items ma l 0 pool 0 with
      | mk p2 r2 =>
        obtain ⟨s2, e2⟩ := r2
        simp only [hsi] at this
        simpa [arrayStep, arraySetK, hsi] using this
    | null => simp [arrayStep, arraySetK]
    | bool b => simp [arrayStep, arraySetK]
    | int n => simp [arrayStep, arraySetK]
    | str s => simp [arrayStep, arraySetK]
    | obj fs => simp [arrayStep, arraySetK]
  | reset =>
    cases df with
    | none => simpa [arrayStep] using h
    | some d =>
      cases d with
      | arr l =>
        have := setterItems_len fm research pre items ma l 0 pool 0 (by omega)
        cases hsi : setterItems fm research pre items ma l 0 pool 0 with
        | mk p2 r2 =>
          obtain ⟨s2, e2⟩ := r2
          simp only [hsi] at this
          simpa [arrayStep, arraySetK, hsi] using this
      | null => simp [arrayStep, arraySetK]
      | bool b => simp [arrayStep, arraySetK]
      | int n => simp [arrayStep, arraySetK]
      | str s => simp [arrayStep, arraySetK]
      | obj fs => simp [arrayStep, arraySetK]

theorem arrayRun_inv (fm research : String → String → Bool) (pre : Nat)
    (items : Schema) (mi ma : Option Nat) (df : Option JVal) :
    ∀ (ops : List AOp) (st : List WState × Nat), st.2 ≤ st.1.length →
    (arrayRun fm research pre items mi ma df ops st).2 ≤
      (arrayRun fm research pre items mi ma df ops st).1.length := by
  intro ops
  induction ops with
  | nil => intro st h; simpa [arrayRun] using h
  | cons op ops ih =>
    intro st h
    simp only [arrayRun]
    exact ih _ (arrayStep_inv fm research pre items mi ma df st op h)

theorem constructItems_char (fm research : String → String → Bool) (pre : Nat)
    (items : Schema) (ma : Option Nat) :
    ∀ (n : Nat) (pool p : List WState) (size s : Nat),
    size = pool.length →
    (∀ b, ma = some b → size ≤ b) →
    constructItems fm research pre items ma n pool size = (p, s, none) →
    s = p.length
    ∧ (∀ b, ma = some b → s = min (size + n) b)
    ∧ (ma = none → s = size + n) := by
  intro n
  induction n with
  | zero =>
    intro pool p size s hsz hb h
    simp only [constructItems] at h
    obtain ⟨h1, h2⟩ := by simpa using h
    subst h1; subst h2
    refine ⟨hsz, fun b hb2 => ?_, fun _ => by omega⟩
    have := hb b hb2
    omega
  | succ n ih =>
    intro pool p size s hsz hb h
    simp only [constructItems] at h
    by_cases hg : ma = some size
    · rw [addEntry, if_pos hg] at h
      simp only at h
      obtain ⟨h1, h2, h3⟩ := ih pool p size s hsz hb h
      refine ⟨h1, fun b hb2 => ?_, fun hn => by rw [hn] at hg; cases hg⟩
      have hbs : b = size := by rw [hg] at hb2; simpa using hb2.symm
      have := h2 b hb2
      omega
    · rw [addEntry, if_neg hg] at h
      rw [if_pos hsz] at h
      cases hc : construct fm research pre items with
      | error e =>
        rw [hc] at h
        simp at h
      | ok fresh =>
        rw [hc] at h
        simp only [except_map_ok] at h
        have hidx : (pool ++ [fresh])[size]? = some fresh := by
          rw [hsz]; simp
        rw [hidx] at h
        cases hr : resetter fm research pre items fresh with
        | error e => simp [hr] at h
        | ok c2 =>
          simp only [hr] at h
          have hlen : ((pool ++ [fresh]).set size c2).length = size + 1 := by
            simp [hsz]
          have hb2 : ∀ b, ma = some b → size + 1 ≤ b := by
            intro b hbb
            have := hb b hbb
            have : size ≠ b := fun he => hg (by rw [hbb, he])
            omega
          obtain ⟨h1, h2, h3⟩ := ih _ p _ s hlen.symm hb2 h
          refine ⟨h1, fun b hbb => ?_, fun hn => ?_⟩
          · have := h2 b hbb
            have := hb b hbb
            omega
          · have := h3 hn
            omega

/-- C3 (amended): provided minItems ≤ maxItems when both are present, every
array element state reachable from a successfully constructed array by any
sequence of add / remove / move / setter / resetter operations satisfies
element_size ≤ pool length (element_size is a Nat, so 0 ≤ element_size
holds by type); an add action when element_size equals maxItems returns
before doing anything (element_size and pool unchanged), and a remove
action when element_size equals minItems likewise.  Without the
minItems ≤ maxItems premise the invariant fails at construction (see the
counterexample). -/
theorem c3_bounds_amended :
    ∀ (fm research : String → String → Bool) (pre : Nat) (items : Schema)
      (mi ma : Option Nat) (df : Option JVal) (pool0 : List WState) (size0 : Nat),
      (∀ a b, mi = some a → ma = some b → a ≤ b) →
      construct fm research pre (.arr items mi ma df) = .ok (.warr pool0 size0) →
      (∀ ops, (arrayRun fm research pre items mi ma df ops (pool0, size0)).2
              ≤ (arrayRun fm research pre items mi ma df ops (pool0, size0)).1.length)
      ∧ (∀ (pool : List WState) (m : Nat), ma = some m →
           arrayStep fm research pre items mi ma df (pool, m) .add = (pool, m))
      ∧ (∀ (pool : List WState) (m i : Nat), mi = some m →
           arrayStep fm research pre items mi ma df (pool, m) (.remove i) = (pool, m)) := by
  intro fm research pre items mi ma df pool0 size0 hmima hcon
  refine ⟨?_, ?_, ?_⟩
  · intro ops
    apply arrayRun_inv
    simp only [construct] at hcon
    cases hci : constructItems fm research pre items ma (max (mi.getD 0) pre) [] 0 with
    | mk p r =>
      obtain ⟨s, err⟩ := r
      rw [hci] at hcon
      cases err with
      | some e => simp at hcon
      | none =>
        simp at hcon
        obtain ⟨hp, hs⟩ := hcon
        subst hp; subst hs
        obtain ⟨h1, h2, h3⟩ := constructItems_char fm research pre items ma
          (max (mi.getD 0) pre) [] p 0 s rfl (by intro b _; omega) hci
        cases ma with
        | none =>
          have := h3 rfl
          simp at this
          cases mi with
          | none => simp
          | some a => simp at this ⊢; omega
        | some b =>
          have := h2 b rfl
          simp at this
          cases mi with
          | none => simp
          | some a =>
            have hab := hmima a b rfl rfl
            simp at this ⊢
            omega
  · intro pool m hma
    simp [arrayStep, addEntry, hma]
  · intro pool m i hmi
    simp [arrayStep, removeEntry, hmi]

theorem c3_counterexample :
    construct fmAll fmAll 0
      (.arr (.simple .integer ⟨none, none, none, none, none⟩) (some 5) (some 3) none)
      = .ok (.warr [.wsimple (.int 0), .wsimple (.int 0), .wsimple (.int 0)] 5)
    ∧ ¬(5 ≤ [WState.wsimple (.int 0), .wsimple (.int 0), .wsimple (.int 0)].length) := by
  constructor
  · simp [construct, constructItems, addEntry, resetter, construct, resetSimpleVal,
          assignSimple, numericType, traitDefault, clampOne]
  · simp

theorem c3_witness :
    ((arrayRun fmAll fmAll 0 (.simple .integer ⟨none, none, none, none, none⟩)
        (some 1) (some 3) none [.add, .add, .remove 0]
        ([.wsimple (.int 0)], 1)).2
      ≤ (arrayRun fmAll fmAll 0 (.simple .integer ⟨none, none, none, none, none⟩)
        (some 1) (some 3) none [.add, .add, .remove 0]
        ([.wsimple (.int 0)], 1)).1.length)
    ∧ arrayStep fmAll fmAll 0 (.simple .integer ⟨none, none, none, none, none⟩)
        (some 1) (some 3) none ([.wsimple (.int 0)], 3) .add
        = ([.wsimple (.int 0)], 3) :=
  have hmain := c3_bounds_amended fmAll fmAll 0
    (.simple .integer ⟨none, none, none, none, none⟩) (some 1) (some 3) none
    [.wsimple (.int 0)] 1
    (by intro a b ha hb; cases ha; cases hb; omega)
    (by simp [construct, constructItems, addEntry, resetter, resetSimpleVal,
              assignSimple, numericType, traitDefault, clampOne])
  ⟨hmain.1 [.add, .add, .remove 0], hmain.2.1 [.wsimple (.int 0)] 3 rfl⟩

theorem notified_mem (o : ObsReg) (obs : List ObsReg) (hmem : o ∈ obs)
    (hq : qualifies o = true) : o.h ∈ notified obs := by
  simp only [notified, List.mem_map]
  exact ⟨o, List.mem_filter.mpr ⟨hmem, hq⟩, rfl⟩

theorem formStep_obs_mono (fm research : String → String → Bool) (pre : Nat)
    (items : Schema) (mi ma : Option Nat) (st : FState) (op : FOp)
    (o : ObsReg) (h : o ∈ st.obs) :
    o ∈ (formStep fm research pre items mi ma st op).1.obs := by
  cases op with
  | observeOp h2 n t =>
    simp only [formStep, List.mem_append]
    exact Or.inl h
  | addOp =>
    simp only [formStep]
    cases hae : addEntry fm research pre items ma st.pool st.size with
    | mk p2 r2 =>
      obtain ⟨s2, f2, e2⟩ := r2
      simpa using h
  | removeOp i =>
    simp only [formStep]
    cases hre : removeEntry mi i st.pool st.size with
    | mk p2 r2 =>
      obtain ⟨s2, f2⟩ := r2
      simpa using h

theorem formRun_obs_mono (fm research : String → String → Bool) (pre : Nat)
    (items : Schema) (mi ma : Option Nat) :
    ∀ (ops : List FOp) (st : FState) (o : ObsReg), o ∈ st.obs →
    o ∈ (formRun fm research pre items mi ma ops st).obs := by
  intro ops
  induction ops with
  | nil => intro st o h; simpa [formRun] using h
  | cons op ops ih =>
    intro st o h
    simp only [formRun]
    exact ih _ o (formStep_obs_mono fm research pre items mi ma st op o h)

/-- C8 (amended): a change handler registered through Form.observe (default
filter traitlets.All and event type "change") is invoked by any subsequent
array add action that actually runs trigger_observers — that is, an add not
suppressed by the maxItems early return (and not aborted by an exception
from the reused child resetter) — and a handler registered at any later
point (after arbitrary intervening operations, including array growth) is
likewise invoked by any subsequent remove action not suppressed by the
minItems early return, because trigger_observers iterates the current
Form._observers list.  An add at maxItems or a remove at minItems returns
before firing and invokes no handler (see the counterexample). -/
theorem c8_observers_retroactive_amended :
    ∀ (fm research : String → String → Bool) (pre : Nat) (items : Schema)
      (mi ma : Option Nat) (h : Nat) (st0 : FState) (ops : List FOp),
      let st1 := formRun fm research pre items mi ma ops
                   (formStep fm research pre items mi ma st0 (.observeOp h .all "change")).1
      ((addEntry fm research pre items ma st1.pool st1.size).2.2.1 = true →
        h ∈ (formStep fm research pre items mi ma st1 .addOp).2)
      ∧ (∀ i, (removeEntry mi i st1.pool st1.size).2.2 = true →
        h ∈ (formStep fm research pre items mi ma st1 (.removeOp i)).2) := by
  intro fm research pre items mi ma h st0 ops
  intro st1
  have hmem : (⟨h, .all, "change"⟩ : ObsReg) ∈ st1.obs := by
    apply formRun_obs_mono
    simp [formStep]
  have hq : qualifies ⟨h, .all, "change"⟩ = true := rfl
  constructor
  · intro hfired
    simp only [formStep]
    cases hae : addEntry fm research pre items ma st1.pool st1.size with
    | mk p2 r2 =>
      obtain ⟨s2, f2, e2⟩ := r2
      rw [hae] at hfired
      simp only at hfired
      subst hfired
      simpa using notified_mem ⟨h, .all, "change"⟩ st1.obs hmem hq
  · intro i hfired
    simp only [formStep]
    cases hre : removeEntry mi i st1.pool st1.size with
    | mk p2 r2 =>
      obtain ⟨s2, f2⟩ := r2
      rw [hre] at hfired
      simp only at hfired
      subst hfired
      simpa using notified_mem ⟨h, .all, "change"⟩ st1.obs hmem hq

theorem c8_witness :
    5 ∈ (formStep fmAll fmAll 0 (.simple .integer ⟨none, none, none, none, none⟩)
          none none
          (formRun fmAll fmAll 0 (.simple .integer ⟨none, none, none, none, none⟩)
            none none []
            (formStep fmAll fmAll 0 (.simple .integer ⟨none, none, none, none, none⟩)
              none none ⟨[], [], 0⟩ (.observeOp 5 .all "change")).1) .addOp).2 :=
  (c8_observers_retroactive_amended fmAll fmAll 0
    (.simple .integer ⟨none, none, none, none, none⟩) none none 5 ⟨[], [], 0⟩ []).1
    (by simp [formRun, formStep, addEntry, construct, resetter, resetSimpleVal,
              assignSimple, numericType, traitDefault, clampOne])

theorem c8_counterexample :
    qualifies ⟨7, .all, "change"⟩ = true
    ∧ (formStep fmAll fmAll 0 (.simple .integer ⟨none, none, none, none, none⟩)
        none (some 0) ⟨[⟨7, .all, "change"⟩], [], 0⟩ .addOp).2 = [] := by
  refine ⟨rfl, ?_⟩
  simp [formStep, addEntry]

theorem forall2_getElem {α β : Type} (R : α → β → Prop) :
    ∀ (xs : List α) (ys : List β), List.Forall₂ R xs ys →
    ∀ (k : Nat) (x : α), xs[k]? = some x → ∃ y, ys[k]? = some y ∧ R x y := by
  intro xs ys h
  induction h with
  | nil => intro k x hx; simp at hx
  | cons h1 h2 ih =>
    intro k x hx
    cases k with
    | zero =>
      simp at hx
      subst hx
      exact ⟨_, by simp, h1⟩
    | succ k =>
      simp at hx
      obtain ⟨y, hy, hr⟩ := ih k x hx
      exact ⟨y, by simpa using hy, hr⟩

theorem getterList_ok_of_forall2 (fm : String → String → Bool) (items : Schema) :
    ∀ (cs : List WState) (l : List JVal),
    List.Forall₂ (fun c x => getter fm items c = .ok x) cs l →
    getterList fm items cs = .ok l := by
  intro cs l h
  induction h with
  | nil => simp [getterList]
  | cons h1 h2 ih => simp [getterList, h1, ih]

theorem wfList_iff_forall (items : Schema) :
    ∀ (cs : List WState), wfList items cs = true ↔ ∀ c ∈ cs, wf items c = true := by
  intro cs
  induction cs with
  | nil => simp [wfList]
  | cons c cs ih => simp [wfList, ih]

theorem goodValList_iff_forall (fm research : String → String → Bool) (items : Schema) :
    ∀ (l : List JVal),
    goodValList fm research items l = true ↔ ∀ x ∈ l, goodVal fm research items x = true := by
  intro l
  induction l with
  | nil => simp [goodValList]
  | cons x xs ih => simp [goodValList, ih]

theorem goodSchemaProps_mem (fm research : String → String → Bool) :
    ∀ (ps : List (String × Schema)) (p : String × Schema),
    goodSchemaProps fm research ps = true → p ∈ ps → goodSchema fm research p.2 = true := by
  intro ps
  induction ps with
  | nil => intro p _ hm; cases hm
  | cons q ps ih =>
    intro p hg hm
    obtain ⟨n, s⟩ := q
    simp only [goodSchemaProps, Bool.and_eq_true] at hg
    cases hm with
    | head => exact hg.1
    | tail _ hm2 => exact ih p hg.2 hm2

theorem wfProps_length :
    ∀ (ps : List (String × Schema)) (cs : List WState),
    wfProps ps cs = true → ps.length = cs.length := by
  intro ps
  induction ps with
  | nil => intro cs h; cases cs with
    | nil => rfl
    | cons c cs => simp [wfProps] at h
  | cons p ps ih =>
    intro cs h
    obtain ⟨n, s⟩ := p
    cases cs with
    | nil => simp [wfProps] at h
    | cons c cs =>
      simp only [wfProps, Bool.and_eq_true] at h
      simpa using ih cs h.2

theorem wfProps_mem_getElem :
    ∀ (ps : List (String × Schema)) (cs : List WState),
    wfProps ps cs = true →
    ∀ (k : Nat) (p : String × Schema) (c : WState),
    ps[k]? = some p → cs[k]? = some c → wf p.2 c = true := by
  intro ps
  induction ps with
  | nil => intro cs _ k p c hp; simp at hp
  | cons q ps ih =>
    intro cs h k p c hp hc
    obtain ⟨n, s⟩ := q
    cases cs with
    | nil => simp [wfProps] at h
    | cons c0 cs =>
      simp only [wfProps, Bool.and_eq_true] at h
      cases k with
      | zero =>
        simp at hp hc
        subst hp; subst hc
        exact h.1
      | succ k =>
        simp at hp hc
        exact ih cs h.2 k p c hp hc

theorem clampOne_id (mi ma : Option Int) (n : Int)
    (h1 : ∀ a, mi = some a → a ≤ n) (h2 : ∀ b, ma = some b → n ≤ b) :
    clampOne mi ma n = n := by
  cases mi with
  | none =>
    cases ma with
    | none => simp [clampOne]
    | some b =>
      have hbb := h2 b rfl
      simp only [clampOne]
      rw [if_neg (by omega)]
  | some a =>
    have ha := h1 a rfl
    cases ma with
    | none =>
      simp only [clampOne]
      rw [if_neg (by omega)]
    | some b =>
      have hbb := h2 b rfl
      simp only [clampOne]
      rw [if_neg (by omega), if_neg (by omega)]

theorem assignSimple_id (ty : SType) (opts : SOpts) (v : JVal)
    (hb : boundsOk opts v = true) :
    assignSimple ty opts v = v := by
  simp only [assignSimple]
  by_cases hn : numericType ty = true
  · rw [if_pos hn]
    cases v with
    | int n =>
      simp only [boundsOk] at hb
      rw [Bool.and_eq_true] at hb
      have h1 : ∀ a, opts.minimum = some a → a ≤ n := by
        intro a ha
        have := hb.1
        rw [ha] at this
        simpa using this
      have h2 : ∀ b, opts.maximum = some b → n ≤ b := by
        intro b hbb
        have := hb.2
        rw [hbb] at this
        simpa using this
      simp only [clampOne_id opts.minimum opts.maximum n h1 h2]
    | null => rfl
    | bool b => rfl
    | str s => rfl
    | arr l => rfl
    | obj fs => rfl
  · rw [if_neg hn]

theorem sizeOf_snd_lt_of_mem {p : String × Schema} {ps : List (String × Schema)}
    (h : p ∈ ps) : sizeOf p.2 < sizeOf ps := by
  have h1 := List.sizeOf_lt_of_mem h
  obtain ⟨a, b⟩ := p
  simp at h1 ⊢
  omega

theorem findIdx_of_nodup :
    ∀ (names : List String) (k : Nat) (t : String),
    names.Nodup → names[k]? = some t →
    names.findIdx? (fun x => x == t) = some k := by
  intro names
  induction names with
  | nil => intro k t _ h; simp at h
  | cons a names ih =>
    intro k t hnd h
    cases k with
    | zero =>
      simp at h
      subst h
      rw [List.findIdx?_cons]
      simp
    | succ k =>
      simp at h
      have htm : t ∈ names := by
        obtain ⟨hlt, he⟩ := List.getElem?_eq_some_iff.mp h
        exact he ▸ List.getElem_mem hlt
      have hne : (a == t) = false := by
        simp only [List.nodup_cons] at hnd
        simp only [beq_eq_false_iff_ne]
        intro he
        exact hnd.1 (he ▸ htm)
      rw [List.findIdx?_cons, hne]
      simp [ih k t (List.nodup_cons.mp hnd).2 h]

theorem getterAlts_eq (fm : String → String → Bool) :
    ∀ (alts : List (String × Schema)) (cs : List WState) (k : Nat)
      (p : String × Schema) (c : WState),
    alts[k]? = some p → cs[k]? = some c →
    getterAlts fm alts cs k = getter fm p.2 c := by
  intro alts
  induction alts with
  | nil => intro cs k p c hp; simp at hp
  | cons q alts ih =>
    intro cs k p c hp hc
    obtain ⟨t, s⟩ := q
    cases cs with
    | nil => simp at hc
    | cons c0 cs =>
      cases k with
      | zero =>
        simp at hp hc
        subst hp; subst hc
        simp [getterAlts]
      | succ k =>
        simp at hp hc
        simp only [getterAlts]
        exact ih cs k p c hp hc

theorem setterProps_irrel (fm research : String → String → Bool) (pre : Nat)
    (n : String) (fv : JVal) (fs : List (String × JVal)) :
    ∀ (ps : List (String × Schema)) (cs : List WState),
    n ∉ ps.map Prod.fst →
    setterProps fm research pre ((n, fv) :: fs) ps cs =
      setterProps fm research pre fs ps cs := by
  intro ps
  induction ps with
  | nil =>
    intro cs _
    cases cs <;> simp [setterProps]
  | cons p ps ih =>
    intro cs hn
    obtain ⟨m, s⟩ := p
    cases cs with
    | nil => simp [setterProps]
    | cons c cs =>
      have hmn : (m == n) = false := by
        simp only [List.map_cons, List.mem_cons] at hn
        simp only [beq_eq_false_iff_ne]
        intro he
        exact hn (Or.inl he.symm)
      have htl : n ∉ ps.map Prod.fst := by
        simp only [List.map_cons, List.mem_cons] at hn
        intro hm
        exact hn (Or.inr hm)
      simp only [setterProps, List.lookup, hmn, cond_false]
      rw [ih cs htl]

theorem getElem?_middle {α : Type} :
    ∀ (A : List α) (c : α) (B : List α), (A ++ c :: B)[A.length]? = some c := by
  intro A c B
  induction A with
  | nil => simp
  | cons a A ih => simpa using ih

theorem set_middle {α : Type} :
    ∀ (A : List α) (c c2 : α) (B : List α),
    (A ++ c :: B).set A.length c2 = A ++ c2 :: B := by
  intro A c c2 B
  induction A with
  | nil => simp
  | cons a A ih => simpa using ih

theorem take_middle {α : Type} :
    ∀ (A : List α) (c : α) (B : List α),
    (A ++ c :: B).take (A.length + 1) = A ++ [c] := by
  intro A c B
  induction A with
  | nil => simp
  | cons a A ih => simpa using ih

theorem drop_append_len {α : Type} :
    ∀ (A B : List α) (k : Nat), (A ++ B).drop (A.length + k) = B.drop k := by
  intro A
  induction A with
  | nil => intro B k; simp
  | cons a A ih =>
    intro B k
    have : (a :: A).length + k = (A.length + k) + 1 := by simp; omega
    rw [this]
    simpa using ih B k

theorem set_eq_middle {α : Type} :
    ∀ (l : List α) (i : Nat) (c2 : α), i < l.length →
    l.set i c2 = l.take i ++ c2 :: l.drop (i + 1) := by
  intro l
  induction l with
  | nil => intro i c2 h; simp at h
  | cons a l ih =>
    intro i c2 h
    cases i with
    | zero => simp
    | succ i =>
      simp only [List.set_cons_succ, List.take_succ_cons, List.drop_succ_cons,
                 List.cons_append]
      rw [ih i c2 (by simpa using h)]

theorem constructProps_ok (fm research : String → String → Bool) (pre : Nat) :
    ∀ (ps : List (String × Schema)),
    (∀ p, p ∈ ps → ∃ st, construct fm research pre p.2 = .ok st ∧ wf p.2 st = true) →
    ∃ cs, constructProps fm research pre ps = .ok cs ∧ wfProps ps cs = true := by
  intro ps
  induction ps with
  | nil => intro _; exact ⟨[], by simp [constructProps], by simp [wfProps]⟩
  | cons p ps ih =>
    intro hIH
    obtain ⟨n, s⟩ := p
    obtain ⟨st, hcon, hwf⟩ := hIH (n, s) (List.mem_cons_self _ _)
    obtain ⟨cs, hcs, hwfs⟩ := ih (fun q hq => hIH q (List.mem_cons_of_mem _ hq))
    exact ⟨st :: cs, by simp [constructProps, hcon, hcs],
           by simp [wfProps, hwf, hwfs]⟩

theorem resetterProps_ok (fm research : String → String → Bool) (pre : Nat) :
    ∀ (ps : List (String × Schema)) (cs : List WState),
    (∀ p, p ∈ ps → ∀ st, wf p.2 st = true →
       ∃ st', resetter fm research pre p.2 st = .ok st' ∧ wf p.2 st' = true) →
    wfProps ps cs = true →
    ∃ cs', resetterProps fm research pre ps cs = .ok cs' ∧ wfProps ps cs' = true := by
  intro ps
  induction ps with
  | nil =>
    intro cs _ hwf
    cases cs with
    | nil => exact ⟨[], by simp [resetterProps], by simp [wfProps]⟩
    | cons c cs => simp [wfProps] at hwf
  | cons p ps ih =>
    intro cs hIH hwf
    obtain ⟨n, s⟩ := p
    cases cs with
    | nil => simp [wfProps] at hwf
    | cons c cs =>
      simp only [wfProps, Bool.and_eq_true] at hwf
      obtain ⟨st', hres, hwf'⟩ := hIH (n, s) (List.mem_cons_self _ _) c hwf.1
      obtain ⟨cs', hres2, hwf2⟩ :=
        ih cs (fun q hq => hIH q (List.mem_cons_of_mem _ hq)) hwf.2
      exact ⟨st' :: cs', by simp [resetterProps, hres, hres2],
             by simp [wfProps, hwf', hwf2]⟩

theorem setterProps_ok (fm research : String → String → Bool) (pre : Nat) :
    ∀ (ps : List (String × Schema)) (cs : List WState) (fs : List (String × JVal)),
    (∀ p, p ∈ ps → ∀ st v, wf p.2 st = true → goodVal fm research p.2 v = true →
       ∃ st', setter fm research pre p.2 st v = .ok st' ∧ wf p.2 st' = true ∧
              getter fm p.2 st' = .ok v) →
    wfProps ps cs = true →
    (ps.map Prod.fst).Nodup →
    fs.map Prod.fst = ps.map Prod.fst →
    goodValProps fm research ps fs = true →
    ∃ cs', setterProps fm research pre fs ps cs = .ok cs' ∧
           wfProps ps cs' = true ∧ getterProps fm ps cs' = .ok fs := by
  intro ps
  induction ps with
  | nil =>
    intro cs fs _ hwf _ hnames _
    cases cs with
    | nil =>
      cases fs with
      | nil =>
        exact ⟨[], by simp [setterProps], by simp [wfProps], by simp [getterProps]⟩
      | cons f fs => simp at hnames
    | cons c cs => simp [wfProps] at hwf
  | cons p ps ih =>
    intro cs fs hIH hwf hnd hnames hgv
    obtain ⟨n, s⟩ := p
    cases cs with
    | nil => simp [wfProps] at hwf
    | cons c cs =>
      cases fs with
      | nil => simp at hnames
      | cons f fs =>
        obtain ⟨fn, fv⟩ := f
        simp only [List.map_cons, List.cons.injEq] at hnames
        obtain ⟨hfn, hnames2⟩ := hnames
        subst hfn
        simp only [wfProps, Bool.and_eq_true] at hwf
        simp only [goodValProps, Bool.and_eq_true] at hgv
        obtain ⟨st', hset, hwf', hget⟩ :=
          hIH (fn, s) (List.mem_cons_self _ _) c fv hwf.1 hgv.1
        have hnps : fn ∉ ps.map Prod.fst := by
          simp only [List.map_cons, List.nodup_cons] at hnd
          exact hnd.1
        obtain ⟨cs', hset2, hwf2, hget2⟩ :=
          ih cs fs (fun q hq => hIH q (List.mem_cons_of_mem _ hq)) hwf.2
            (by simp only [List.map_cons, List.nodup_cons] at hnd; exact hnd.2)
            hnames2 hgv.2
        refine ⟨st' :: cs', ?_, by simp [wfProps, hwf', hwf2],
                by simp [getterProps, hget, hget2]⟩
        simp only [setterProps]
        have hlk : List.lookup fn ((fn, fv) :: fs) = some fv := by simp [List.lookup]
        rw [hlk]
        simp only [hset, except_bind_ok]
        rw [setterProps_irrel fm research pre fn fv fs ps cs hnps]
        simp [hset2]

theorem setterAlts_ok2 (fm research : String → String → Bool) (pre : Nat) (v : JVal) :
    ∀ (alts : List (String × Schema)) (cs : List WState) (acc : Option String),
    (∀ p, p ∈ alts → ∀ st, wf p.2 st = true → validates research p.2 v = true →
       goodVal fm research p.2 v = true →
       ∃ st', setter fm research pre p.2 st v = .ok st' ∧ wf p.2 st' = true ∧
              getter fm p.2 st' = .ok v) →
    wfProps alts cs = true →
    goodValAlts fm research alts v = true →
    ∃ racc cs', setterAlts fm research pre alts cs v acc = .ok (racc, cs')
      ∧ wfProps alts cs' = true
      ∧ (racc = match lastAcceptIdx research alts v with
                | some k => (alts.map Prod.fst)[k]?
                | none => acc)
      ∧ ∀ (k : Nat) (p : String × Schema) (c' : WState),
          alts[k]? = some p → cs'[k]? = some c' → validates research p.2 v = true →
          getter fm p.2 c' = .ok v := by
  intro alts
  induction alts with
  | nil =>
    intro cs acc _ hwf _
    cases cs with
    | nil =>
      refine ⟨acc, [], by simp [setterAlts], by simp [wfProps],
              by simp [lastAcceptIdx], ?_⟩
      intro k p c' hp
      simp at hp
    | cons c cs => simp [wfProps] at hwf
  | cons q alts ih =>
    intro cs acc hIH hwf hgv
    obtain ⟨t, s⟩ := q
    cases cs with
    | nil => simp [wfProps] at hwf
    | cons c cs =>
      simp only [wfProps, Bool.and_eq_true] at hwf
      simp only [goodValAlts, Bool.and_eq_true] at hgv
      cases hval : validates research s v with
      | true =>
        have hgood : goodVal fm research s v = true := by
          have := hgv.1
          rw [hval] at this
          simpa using this
        obtain ⟨st', hset, hwf', hget⟩ :=
          hIH (t, s) (List.mem_cons_self _ _) c hwf.1 hval hgood
        obtain ⟨racc, cs', hsa, hwf2, hracc, hidx⟩ :=
          ih cs (some t) (fun p hp => hIH p (List.mem_cons_of_mem _ hp)) hwf.2 hgv.2
        refine ⟨racc, st' :: cs', ?_, by simp [wfProps, hwf', hwf2], ?_, ?_⟩
        · simp only [setterAlts, hval, if_true, hset, hsa]
          rfl
        · rw [hracc]
          cases hps : lastAcceptIdx research alts v <;>
            simp [lastAcceptIdx, hps, hval]
        · intro k p c' hp hc hvp
          cases k with
          | zero =>
            simp at hp hc
            rw [← hp, ← hc]
            exact hget
          | succ k =>
            simp at hp hc
            exact hidx k p c' hp hc hvp
      | false =>
        obtain ⟨racc, cs', hsa, hwf2, hracc, hidx⟩ :=
          ih cs acc (fun p hp => hIH p (List.mem_cons_of_mem _ hp)) hwf.2 hgv.2
        refine ⟨racc, c :: cs', ?_, by simp [wfProps, hwf.1, hwf2], ?_, ?_⟩
        · simp only [setterAlts, hval, Bool.false_eq_true, if_false, hsa]
          rfl
        · rw [hracc]
          cases hps : lastAcceptIdx research alts v <;>
            simp [lastAcceptIdx, hps, hval]
        · intro k p c' hp hc hvp
          cases k with
          | zero =>
            simp at hp hc
            rw [← hp] at hvp
            simp at hvp
            rw [hval] at hvp
            cases hvp
          | succ k =>
            simp at hp hc
            exact hidx k p c' hp hc hvp

theorem setterItems_ok (fm research : String → String → Bool) (pre : Nat)
    (items : Schema) (ma : Option Nat)
    (hCon : ∃ st, construct fm research pre items = .ok st ∧ wf items st = true)
    (hRes : ∀ st, wf items st = true →
       ∃ st', resetter fm research pre items st = .ok st' ∧ wf items st' = true)
    (hSet : ∀ st v, wf items st = true → goodVal fm research items v = true →
       ∃ st', setter fm research pre items st v = .ok st' ∧ wf items st' = true ∧
              getter fm items st' = .ok v) :
    ∀ (l : List JVal) (i : Nat) (pool : List WState),
    goodValList fm research items l = true →
    (∀ m, ma = some m → i + l.length ≤ m) →
    wfList items pool = true →
    i ≤ pool.length →
    ∃ seg, setterItems fm research pre items ma l i pool i =
            (pool.take i ++ seg ++ pool.drop (i + l.length), i + l.length, none)
      ∧ seg.length = l.length
      ∧ List.Forall₂ (fun c x => wf items c = true ∧ getter fm items c = .ok x) seg l := by
  intro l
  induction l with
  | nil =>
    intro i pool _ _ _ _
    refine ⟨[], ?_, rfl, List.Forall₂.nil⟩
    simp [setterItems]
  | cons x xs ih =>
    intro i pool hgv hma hwfl hi
    simp only [goodValList, Bool.and_eq_true] at hgv
    have hgx : goodVal fm research items x = true := hgv.1
    have hguard : ¬(ma = some i) := by
      intro he
      have := hma i he
      simp at this
    -- run add_entry: obtain the reset child c2 at index i
    have hstep : ∃ c2, wf items c2 = true ∧
        addEntry fm research pre items ma pool i =
          (pool.take i ++ c2 :: pool.drop (i + 1), i + 1, true, none) := by
      by_cases hsz : i = pool.length
      · obtain ⟨fresh, hconf, hwff⟩ := hCon
        have hidx : (pool ++ [fresh])[i]? = some fresh := by
          rw [hsz]
          simp
        obtain ⟨c2, hres, hwfc⟩ := hRes fresh hwff
        refine ⟨c2, hwfc, ?_⟩
        simp only [addEntry, if_neg hguard, if_pos hsz, hconf, except_map_ok, hidx,
                   hres]
        have : (pool ++ [fresh]).set i c2 = pool.take i ++ c2 :: pool.drop (i + 1) := by
          rw [hsz]
          simp [List.set_append]
        rw [this]
      · have hlt : i < pool.length := by omega
        have hidx : pool[i]? = some pool[i] := by
          simp [List.getElem?_eq_getElem hlt]
        have hwfc0 : wf items pool[i] = true := by
          rw [wfList_iff_forall] at hwfl
          exact hwfl _ (List.getElem_mem hlt)
        obtain ⟨c2, hres, hwfc⟩ := hRes pool[i] hwfc0
        refine ⟨c2, hwfc, ?_⟩
        simp only [addEntry, if_neg hguard, if_neg hsz, hidx, hres]
        rw [set_eq_middle pool i c2 hlt]
    obtain ⟨c2, hwfc2, hae⟩ := hstep
    -- now the child setter at index i
    have hmid : (pool.take i ++ c2 :: pool.drop (i + 1))[i]? = some c2 := by
      have hlen : (pool.take i).length = i := by
        simp [List.length_take]
        omega
      have := getElem?_middle (pool.take i) c2 (pool.drop (i + 1))
      rw [hlen] at this
      exact this
    obtain ⟨c3, hset, hwfc3, hget3⟩ := hSet c2 x hwfc2 hgx
    have hsetres : (pool.take i ++ c2 :: pool.drop (i + 1)).set i c3 =
        pool.take i ++ c3 :: pool.drop (i + 1) := by
      have hlen : (pool.take i).length = i := by
        simp [List.length_take]
        omega
      have := set_middle (pool.take i) c2 c3 (pool.drop (i + 1))
      rw [hlen] at this
      exact this
    -- invoke the induction hypothesis on the updated pool
    have hwfB : wfList items (pool.take i ++ c3 :: pool.drop (i + 1)) = true := by
      rw [wfList_iff_forall]
      intro c hc
      simp only [List.mem_append, List.mem_cons] at hc
      rcases hc with h1 | h2 | h3
      · rw [wfList_iff_forall] at hwfl
        exact hwfl c (List.mem_of_mem_take h1)
      · rw [h2]
        exact hwfc3
      · rw [wfList_iff_forall] at hwfl
        exact hwfl c (List.mem_of_mem_drop h3)
    have hlenB : (pool.take i ++ c3 :: pool.drop (i + 1)).length =
        max pool.length (i + 1) := by
      simp [List.length_take, List.length_drop]
      omega
    have hiB : i + 1 ≤ (pool.take i ++ c3 :: pool.drop (i + 1)).length := by
      rw [hlenB]
      omega
    have hmaB : ∀ m, ma = some m → (i + 1) + xs.length ≤ m := by
      intro m hm
      have := hma m hm
      simp at this
      omega
    obtain ⟨seg, hrec, hseglen, hfa⟩ :=
      ih (i + 1) (pool.take i ++ c3 :: pool.drop (i + 1)) hgv.2 hmaB hwfB hiB
    -- expose the recursive call and assemble
    refine ⟨c3 :: seg, ?_, by simpa using hseglen, List.Forall₂.cons ⟨hwfc3, hget3⟩ hfa⟩
    simp only [setterItems, hae, hmid, hset, hsetres, hrec]
    have hlen : (pool.take i).length = i := by
      simp [List.length_take]
      omega
    have htake : (pool.take i ++ c3 :: pool.drop (i + 1)).take (i + 1) =
        pool.take i ++ [c3] := by
      have := take_middle (pool.take i) c3 (pool.drop (i + 1))
      rw [hlen] at this
      exact this
    have hdrop : (pool.take i ++ c3 :: pool.drop (i + 1)).drop ((i + 1) + xs.length) =
        pool.drop (i + (xs.length + 1)) := by
      have h1 : (i + 1) + xs.length = (pool.take i).length + (1 + xs.length) := by
        rw [hlen]
        omega
      rw [h1, drop_append_len]
      have h2 : (1 + xs.length) = xs.length + 1 := by omega
      rw [h2]
      simp only [List.drop_succ_cons]
      rw [List.drop_drop]
      congr 1
      omega
    rw [htake, hdrop]
    have h4 : (i + 1) + xs.length = i + (xs.length + 1) := by omega
    rw [h4]
    simp

theorem constructItems_ok (fm research : String → String → Bool) (pre : Nat)
    (items : Schema) (ma : Option Nat)
    (hCon : ∃ st, construct fm research pre items = .ok st ∧ wf items st = true)
    (hRes : ∀ st, wf items st = true →
       ∃ st', resetter fm research pre items st = .ok st' ∧ wf items st' = true) :
    ∀ (n : Nat) (pool : List WState) (size : Nat),
    size = pool.length →
    wfList items pool = true →
    ∃ p s, constructItems fm research pre items ma n pool size = (p, s, none)
      ∧ s = p.length ∧ wfList items p = true := by
  intro n
  induction n with
  | zero =>
    intro pool size hsz hwfl
    exact ⟨pool, size, by simp [constructItems], hsz, hwfl⟩
  | succ n ih =>
    intro pool size hsz hwfl
    by_cases hg : ma = some size
    · obtain ⟨p, s, hci, hs, hwfp⟩ := ih pool size hsz hwfl
      refine ⟨p, s, ?_, hs, hwfp⟩
      simp only [constructItems, addEntry, if_pos hg]
      exact hci
    · obtain ⟨fresh, hconf, hwff⟩ := hCon
      have hidx : (pool ++ [fresh])[size]? = some fresh := by
        rw [hsz]
        simp
      obtain ⟨c2, hres, hwfc⟩ := hRes fresh hwff
      have hwfB : wfList items ((pool ++ [fresh]).set size c2) = true := by
        rw [hsz, List.set_append]
        simp
        rw [wfList_iff_forall]
        intro c hc
        simp only [List.mem_append, List.mem_singleton] at hc
        rcases hc with h1 | h2
        · rw [wfList_iff_forall] at hwfl
          exact hwfl c h1
        · rw [h2]
          exact hwfc
      have hlenB : ((pool ++ [fresh]).set size c2).length = size + 1 := by
        simp [hsz]
      obtain ⟨p, s, hci, hs, hwfp⟩ := ih ((pool ++ [fresh]).set size c2) (size + 1)
        hlenB.symm hwfB
      refine ⟨p, s, ?_, hs, hwfp⟩
      simp only [constructItems, addEntry, if_neg hg, if_pos hsz, hconf,
                 except_map_ok, hidx, hres]
      exact hci

theorem wfList_of_forall2 (fm : String → String → Bool) (items : Schema) :
    ∀ (seg : List WState) (l : List JVal),
    List.Forall₂ (fun c x => wf items c = true ∧ getter fm items c = .ok x) seg l →
    wfList items seg = true := by
  intro seg l h
  induction h with
  | nil => simp [wfList]
  | cons h1 h2 ih => simp [wfList, h1.1, ih]

theorem roundtrip_aux (fm research : String → String → Bool) (pre : Nat) :
    ∀ (N : Nat) (s : Schema), sizeOf s < N →
    ((goodSchema fm research s = true →
        ∃ st, construct fm research pre s = .ok st ∧ wf s st = true)
     ∧ (goodSchema fm research s = true → ∀ st, wf s st = true →
        ∃ st', resetter fm research pre s st = .ok st' ∧ wf s st' = true)
     ∧ (goodSchema fm research s = true → ∀ st v, wf s st = true →
        goodVal fm research s v = true →
        ∃ st', setter fm research pre s st v = .ok st' ∧ wf s st' = true ∧
               getter fm s st' = .ok v)) := by
  intro N
  induction N with
  | zero => intro s h; exact absurd h (Nat.not_lt_zero _)
  | succ N ih =>
    intro s hs
    cases s with
    | simple ty opts =>
      refine ⟨?_, ?_, ?_⟩
      · intro _
        cases hco : opts.const with
        | some c =>
          exact ⟨.wnone, by simp [construct, hco], by simp [wf, hco]⟩
        | none =>
          exact ⟨.wsimple (resetSimpleVal ty opts), by simp [construct, hco],
                 by simp [wf, hco]⟩
      · intro _ st hwf
        cases hco : opts.const with
        | some c => exact ⟨st, by simp [resetter, hco], hwf⟩
        | none =>
          exact ⟨.wsimple (resetSimpleVal ty opts), by simp [resetter, hco],
                 by simp [wf, hco]⟩
      · intro _ st v hwf hgv
        cases hco : opts.const with
        | some c =>
          simp only [goodVal, hco] at hgv
          have hvc : v = c := (JVal.beq_iff v c).mp hgv
          refine ⟨st, by simp [setter, hco], hwf, ?_⟩
          cases st with
          | wnone => simp [getter, hco, hvc]
          | wsimple x => simp [wf, hco] at hwf
          | wobj cs => simp [wf, hco] at hwf
          | warr pool size => simp [wf, hco] at hwf
          | wvariant sel cs => simp [wf, hco] at hwf
        | none =>
          simp only [goodVal, hco, Bool.and_eq_true] at hgv
          obtain ⟨⟨hty, hpc⟩, hbo⟩ := hgv
          refine ⟨.wsimple (assignSimple ty opts v), ?_, by simp [wf, hco], ?_⟩
          · simp [setter, hco, hpc]
          · rw [assignSimple_id ty opts v hbo]
            simp [getter, hco, hpc]
    | nul =>
      refine ⟨?_, ?_, ?_⟩
      · intro _
        exact ⟨.wnone, by simp [construct], by simp [wf]⟩
      · intro _ st hwf
        exact ⟨st, by simp [resetter], hwf⟩
      · intro _ st v hwf hgv
        simp only [goodVal] at hgv
        have hv : v = .null := (JVal.beq_iff v .null).mp hgv
        exact ⟨st, by simp [setter], hwf, by simp [getter, hv]⟩
    | obj props =>
      have hmem : ∀ p, p ∈ props → sizeOf p.2 < N := by
        intro p hp
        have h1 := sizeOf_snd_lt_of_mem hp
        have h2 : sizeOf (Schema.obj props) = 1 + sizeOf props := by simp
        omega
      refine ⟨?_, ?_, ?_⟩
      · intro hgs
        simp only [goodSchema, Bool.and_eq_true] at hgs
        obtain ⟨cs, hcs, hwfs⟩ := constructProps_ok fm research pre props
          (fun p hp => (ih p.2 (hmem p hp)).1
            (goodSchemaProps_mem fm research props p hgs.2 hp))
        exact ⟨.wobj cs, by simp [construct, hcs], by simp [wf, hwfs]⟩
      · intro hgs st hwf
        simp only [goodSchema, Bool.and_eq_true] at hgs
        cases st with
        | wobj cs =>
          simp only [wf] at hwf
          obtain ⟨cs', hcs, hwfs⟩ := resetterProps_ok fm research pre props cs
            (fun p hp => (ih p.2 (hmem p hp)).2.1
              (goodSchemaProps_mem fm research props p hgs.2 hp)) hwf
          exact ⟨.wobj cs', by simp [resetter, hcs], by simp [wf, hwfs]⟩
        | wnone => simp [wf] at hwf
        | wsimple x => simp [wf] at hwf
        | warr pool size => simp [wf] at hwf
        | wvariant sel cs => simp [wf] at hwf
      · intro hgs st v hwf hgv
        simp only [goodSchema, Bool.and_eq_true] at hgs
        cases st with
        | wobj cs =>
          simp only [wf] at hwf
          cases v with
          | obj fields =>
            simp only [goodVal, Bool.and_eq_true] at hgv
            obtain ⟨hnames, hgvp⟩ := hgv
            have hnames2 : fields.map Prod.fst = props.map Prod.fst :=
              of_decide_eq_true hnames
            have hnodup : (props.map Prod.fst).Nodup := of_decide_eq_true hgs.1
            obtain ⟨cs', hset, hwfs, hget⟩ := setterProps_ok fm research pre props cs
              fields
              (fun p hp => (ih p.2 (hmem p hp)).2.2
                (goodSchemaProps_mem fm research props p hgs.2 hp))
              hwf hnodup hnames2 hgvp
            exact ⟨.wobj cs', by simp [setter, hset], by simp [wf, hwfs],
                   by simp [getter, hget]⟩
          | null => simp [goodVal] at hgv
          | bool b => simp [goodVal] at hgv
          | int n => simp [goodVal] at hgv
          | str ss => simp [goodVal] at hgv
          | arr l => simp [goodVal] at hgv
        | wnone => simp [wf] at hwf
        | wsimple x => simp [wf] at hwf
        | warr pool size => simp [wf] at hwf
        | wvariant sel cs => simp [wf] at hwf
    | arr items mi ma df =>
      have hszi : sizeOf items < N := by
        have h2 : sizeOf (Schema.arr items mi ma df) =
            1 + sizeOf items + sizeOf mi + sizeOf ma + sizeOf df := by simp
        omega
      refine ⟨?_, ?_, ?_⟩
      · intro hgs
        rw [goodSchema.eq_def] at hgs
        simp only [Bool.and_eq_true] at hgs
        obtain ⟨⟨hgsi, hmima⟩, hdf⟩ := hgs
        obtain ⟨p, sz, hci, hsz, hwfp⟩ :=
          constructItems_ok fm research pre items ma
            ((ih items hszi).1 hgsi) ((ih items hszi).2.1 hgsi)
            (max (mi.getD 0) pre) [] 0 rfl (by simp [wfList])
        refine ⟨.warr p (mi.getD 0), by simp [construct, hci], ?_⟩
        simp only [wf, Bool.and_eq_true]
        refine ⟨?_, hwfp⟩
        obtain ⟨h1, h2, h3⟩ := constructItems_char fm research pre items ma
          (max (mi.getD 0) pre) [] p 0 sz rfl (by intro b _; omega) hci
        cases hma : ma with
        | none =>
          have := h3 hma
          simp at this
          cases hmi : mi with
          | none => simp
          | some a =>
            rw [hmi] at this
            simp at this ⊢
            omega
        | some b =>
          have := h2 b hma
          simp at this
          cases hmi : mi with
          | none => simp
          | some a =>
            rw [hmi, hma] at hmima
            rw [hmi] at this
            simp at hmima this ⊢
            omega
      · intro hgs st hwf
        rw [goodSchema.eq_def] at hgs
        simp only [Bool.and_eq_true] at hgs
        obtain ⟨⟨hgsi, hmima⟩, hdf⟩ := hgs
        cases st with
        | warr pool size =>
          simp only [wf, Bool.and_eq_true] at hwf
          cases hdfc : df with
          | none => exact ⟨.warr pool size, by simp [resetter, hdfc], by
              simp [wf, Bool.and_eq_true]
              exact ⟨of_decide_eq_true hwf.1, hwf.2⟩⟩
          | some d =>
            rw [hdfc] at hdf
            cases d with
            | arr l =>
              simp only [Bool.and_eq_true] at hdf
              obtain ⟨hlen, hgvl⟩ := hdf
              have hmab : ∀ m, ma = some m → 0 + l.length ≤ m := by
                intro m hm
                rw [hm] at hlen
                simpa using hlen
              obtain ⟨seg, hsi, hseglen, hfa⟩ := setterItems_ok fm research pre items
                ma ((ih items hszi).1 hgsi) ((ih items hszi).2.1 hgsi)
                ((ih items hszi).2.2 hgsi) l 0 pool hgvl hmab hwf.2 (by omega)
              refine ⟨.warr (seg ++ pool.drop l.length) l.length, ?_, ?_⟩
              · simp only [resetter, arraySetK, hsi]
                simp
              · simp only [wf, Bool.and_eq_true]
                constructor
                · simp
                  omega
                · rw [wfList_iff_forall]
                  intro c hc
                  simp only [List.mem_append] at hc
                  rcases hc with h1 | h2
                  · have := wfList_of_forall2 fm items seg l hfa
                    rw [wfList_iff_forall] at this
                    exact this c h1
                  · rw [wfList_iff_forall] at hwf
                    exact hwf.2 c (List.mem_of_mem_drop h2)
            | null => simp at hdf
            | bool b => simp at hdf
            | int n => simp at hdf
            | str ss => simp at hdf
            | obj fs => simp at hdf
        | wnone => simp [wf] at hwf
        | wsimple x => simp [wf] at hwf
        | wobj cs => simp [wf] at hwf
        | wvariant sel cs => simp [wf] at hwf
      · intro hgs st v hwf hgv
        rw [goodSchema.eq_def] at hgs
        simp only [Bool.and_eq_true] at hgs
        obtain ⟨⟨hgsi, hmima⟩, hdf⟩ := hgs
        cases st with
        | warr pool size =>
          simp only [wf, Bool.and_eq_true] at hwf
          cases v with
          | arr l =>
            rw [goodVal.eq_def] at hgv
            simp only [Bool.and_eq_true] at hgv
            obtain ⟨hlen, hgvl⟩ := hgv
            have hmab : ∀ m, ma = some m → 0 + l.length ≤ m := by
              intro m hm
              rw [hm] at hlen
              simpa using hlen
            obtain ⟨seg, hsi, hseglen, hfa⟩ := setterItems_ok fm research pre items
              ma ((ih items hszi).1 hgsi) ((ih items hszi).2.1 hgsi)
              ((ih items hszi).2.2 hgsi) l 0 pool hgvl hmab hwf.2 (by omega)
            refine ⟨.warr (seg ++ pool.drop l.length) l.length, ?_, ?_, ?_⟩
            · simp only [setter, arraySetK, hsi]
              simp
            · simp only [wf, Bool.and_eq_true]
              constructor
              · simp
                omega
              · rw [wfList_iff_forall]
                intro c hc
                simp only [List.mem_append] at hc
                rcases hc with h1 | h2
                · have := wfList_of_forall2 fm items seg l hfa
                  rw [wfList_iff_forall] at this
                  exact this c h1
                · rw [wfList_iff_forall] at hwf
                  exact hwf.2 c (List.mem_of_mem_drop h2)
            · have htk : (seg ++ pool.drop l.length).take l.length = seg := by
                rw [← hseglen]
                simp
              simp only [getter, htk]
              rw [getterList_ok_of_forall2 fm items seg l
                (hfa.imp (fun _ _ hc => hc.2))]
              simp
          | null => simp [goodVal] at hgv
          | bool b => simp [goodVal] at hgv
          | int n => simp [goodVal] at hgv
          | str ss => simp [goodVal] at hgv
          | obj fs => simp [goodVal] at hgv
        | wnone => simp [wf] at hwf
        | wsimple x => simp [wf] at hwf
        | wobj cs => simp [wf] at hwf
        | wvariant sel cs => simp [wf] at hwf
    | variant k alts =>
      have hmem : ∀ p, p ∈ alts → sizeOf p.2 < N := by
        intro p hp
        have h1 := sizeOf_snd_lt_of_mem hp
        have h2 : sizeOf (Schema.variant k alts) = 1 + sizeOf k + sizeOf alts := by
          simp
        omega
      refine ⟨?_, ?_, ?_⟩
      · intro hgs
        simp only [goodSchema, Bool.and_eq_true] at hgs
        obtain ⟨⟨hne, hnd⟩, hgsp⟩ := hgs
        cases halts : alts with
        | nil => rw [halts] at hne; simp at hne
        | cons q rest =>
          obtain ⟨t, s0⟩ := q
          rw [halts] at hgsp
          obtain ⟨cs, hcs, hwfs⟩ := constructProps_ok fm research pre ((t, s0) :: rest)
            (fun p hp => (ih p.2 (hmem p (halts ▸ hp))).1
              (goodSchemaProps_mem fm research _ p hgsp hp))
          refine ⟨.wvariant t cs, by simp [construct, hcs], ?_⟩
          simp only [wf, Bool.and_eq_true]
          exact ⟨by simp, hwfs⟩
      · intro hgs st hwf
        simp only [goodSchema, Bool.and_eq_true] at hgs
        obtain ⟨⟨hne, hnd⟩, hgsp⟩ := hgs
        cases st with
        | wvariant sel cs =>
          simp only [wf, Bool.and_eq_true] at hwf
          obtain ⟨cs', hcs, hwfs⟩ := resetterProps_ok fm research pre alts cs
            (fun p hp => (ih p.2 (hmem p hp)).2.1
              (goodSchemaProps_mem fm research alts p hgsp hp)) hwf.2
          exact ⟨.wvariant sel cs', by simp [resetter, hcs], by
            simp only [wf, Bool.and_eq_true]
            exact ⟨hwf.1, hwfs⟩⟩
        | wnone => simp [wf] at hwf
        | wsimple x => simp [wf] at hwf
        | wobj cs => simp [wf] at hwf
        | warr pool size => simp [wf] at hwf
      · intro hgs st v hwf hgv
        simp only [goodSchema, Bool.and_eq_true] at hgs
        obtain ⟨⟨hne, hnd⟩, hgsp⟩ := hgs
        cases st with
        | wvariant sel cs =>
          simp only [wf, Bool.and_eq_true] at hwf
          simp only [goodVal, Bool.and_eq_true] at hgv
          obtain ⟨hany, hgva⟩ := hgv
          obtain ⟨racc, cs', hsa, hwfs, hracc, hidx⟩ :=
            setterAlts_ok2 fm research pre v alts cs none
              (fun p hp st2 hwf2 _ hgood2 => (ih p.2 (hmem p hp)).2.2
                (goodSchemaProps_mem fm research alts p hgsp hp) st2 v hwf2 hgood2)
              hwf.2 hgva
          have hk : ∃ k0, lastAcceptIdx research alts v = some k0 := by
            cases hlk : lastAcceptIdx research alts v with
            | none =>
              rw [lastAcceptIdx_none_iff research alts v] at hlk
              rw [hlk] at hany
              cases hany
            | some k0 => exact ⟨k0, rfl⟩
          obtain ⟨k0, hk0⟩ := hk
          obtain ⟨hk0lt, p0, hp0, hval0⟩ := lastAcceptIdx_mem research alts v k0 hk0
          have hracc2 : racc = some p0.1 := by
            rw [hracc, hk0]
            simp [List.getElem?_map, hp0]
          have hsetter : setter fm research pre (.variant k alts)
              (.wvariant sel cs) v = .ok (.wvariant p0.1 cs') := by
            simp only [setter, hsa, except_map_ok, hracc2]
            rfl
          refine ⟨.wvariant p0.1 cs', hsetter, ?_, ?_⟩
          · simp only [wf, Bool.and_eq_true]
            refine ⟨?_, hwfs⟩
            have : p0.1 ∈ alts.map Prod.fst := by
              have hpmem : p0 ∈ alts := by
                obtain ⟨hlt2, he⟩ := List.getElem?_eq_some_iff.mp hp0
                exact he ▸ List.getElem_mem hlt2
              exact List.mem_map_of_mem Prod.fst hpmem
            simpa using this
          · have hnodup : (alts.map Prod.fst).Nodup := of_decide_eq_true hnd
            have hnames : (alts.map Prod.fst)[k0]? = some p0.1 := by
              simp [List.getElem?_map, hp0]
            have hfi : (alts.map Prod.fst).findIdx? (fun x => x == p0.1) = some k0 :=
              findIdx_of_nodup (alts.map Prod.fst) k0 p0.1 hnodup hnames
            have hlen : alts.length = cs'.length := wfProps_length alts cs' hwfs
            have hcs' : ∃ c', cs'[k0]? = some c' := by
              have : k0 < cs'.length := by omega
              exact ⟨cs'[k0], by simp [List.getElem?_eq_getElem this]⟩
            obtain ⟨c', hc'⟩ := hcs'
            simp only [getter, hfi]
            rw [getterAlts_eq fm alts cs' k0 p0 c' hp0 hc']
            exact hidx k0 p0 c' hp0 hc' hval0
        | wnone => simp [wf] at hwf
        | wsimple x => simp [wf] at hwf
        | wobj cs => simp [wf] at hwf
        | warr pool size => simp [wf] at hwf

/-- C1 (amended): round-trip at the Form facade.  For a schema in the
modelled fragment whose nodes are internally coherent (goodSchema: bounds
only on numeric types, minItems not above maxItems, array defaults within
maxItems and themselves round-trippable, variants nonempty with distinct
titles, object property names distinct) and a value that the external
validator accepts AND that is in canonical form for the widget tree
(goodVal: object nodes supply exactly the declared properties in
declaration order, strings full-match their pattern under the widget
pattern_checker, arrays within maxItems, variant values accepted by some
alternative), assigning the value through the data property succeeds and
reading the data property back returns a value structurally equal to the
one assigned. -/
theorem c1_roundtrip_amended (fm research : String → String → Bool) (pre : Nat)
    (s : Schema) (st : WState) (v : JVal)
    (hgs : goodSchema fm research s = true)
    (hwf : wf s st = true)
    (hgv : goodVal fm research s v = true)
    (hval : validates research s v = true) :
    ∃ st', Form.setData fm research pre s st v = .ok st'
         ∧ Form.getData fm research s st' = .ok v := by
  obtain ⟨st', hset, hwf', hget⟩ :=
    (roundtrip_aux fm research pre (sizeOf s + 1) s (by omega)).2.2 hgs st v hwf hgv
  exact ⟨st', by simp [Form.setData, hval, hset],
         by simp [Form.getData, hget, hval]⟩

theorem c1_witness :
    ∃ st', Form.setData fmAll fmAll 0
          (Schema.simple .integer ⟨none, none, none, none, none⟩)
          (WState.wsimple (JVal.int 0)) (JVal.int 7) = .ok st'
        ∧ Form.getData fmAll fmAll
          (Schema.simple .integer ⟨none, none, none, none, none⟩) st'
          = .ok (JVal.int 7) :=
  c1_roundtrip_amended fmAll fmAll 0 _ _ _
    (by simp [goodSchema])
    (by simp [wf])
    (by simp [goodVal, typeOk, patternChecker, boundsOk])
    (by simp [validates, typeOk, boundsOk])

/-- C1 counterexample to the unamended claim: the object schema with two
integer properties a (default 1) and b (default 2) and no required keyword
accepts the partial document {a: 9} (the external validator checks only
the properties that are present), the assignment through the data property
succeeds, but reading back yields {a: 9, b: 2} — the omitted property has
been reset to its default — which is not structurally equal to the value
assigned; neither variant ambiguity nor array reordering is involved, so
the documented caveats do not cover it. -/
theorem c1_counterexample :
    validates fmAll
      (Schema.obj [("a", .simple .integer ⟨none, none, some (.int 1), none, none⟩),
                   ("b", .simple .integer ⟨none, none, some (.int 2), none, none⟩)])
      (JVal.obj [("a", .int 9)]) = true
    ∧ Form.setData fmAll fmAll 0
        (Schema.obj [("a", .simple .integer ⟨none, none, some (.int 1), none, none⟩),
                     ("b", .simple .integer ⟨none, none, some (.int 2), none, none⟩)])
        (WState.wobj [.wsimple (.int 1), .wsimple (.int 2)])
        (JVal.obj [("a", .int 9)])
      = .ok (WState.wobj [.wsimple (.int 9), .wsimple (.int 2)])
    ∧ Form.getData fmAll fmAll
        (Schema.obj [("a", .simple .integer ⟨none, none, some (.int 1), none, none⟩),
                     ("b", .simple .integer ⟨none, none, some (.int 2), none, none⟩)])
        (WState.wobj [.wsimple (.int 9), .wsimple (.int 2)])
      = .ok (JVal.obj [("a", .int 9), ("b", .int 2)])
    ∧ JVal.obj [("a", .int 9), ("b", .int 2)] ≠ JVal.obj [("a", .int 9)] := by
  refine ⟨?_, ?_, ?_, by simp⟩
  · simp [validates, validatesProps, typeOk, boundsOk, List.lookup]
  · simp [Form.setData, validates, validatesProps, typeOk, boundsOk, List.lookup,
          setter, setterProps, resetter, resetSimpleVal, assignSimple, numericType,
          patternChecker, clampOne]
  · simp [Form.getData, getter, getterProps, patternChecker, validates,
          validatesProps, typeOk, boundsOk, List.lookup]

end IpywidgetsJsonschema
